import Mathlib

/-!
Verification of the 4wins repository (Connect-Four agents).

The game model is embedded shallowly: a board is a total function from
row and column indices (row 0 is the bottom row) to cell contents, which
mirrors the numpy array of shape (6, 7) used throughout the source
(`initialize_game_state` defaults to shape (6, 7), and the spec fixes the
board size as a baked-in assumption).  In-place mutation in the source
(board copies, shared root boards, statistics dictionaries) is modelled by
pure functions returning new values; Python exceptions (`ValueError`) are
modelled by `Option`/`Except` results.
-/

set_option maxHeartbeats 1000000

namespace FourWins

/-- Cell contents of a board: `NO_PLAYER`, `PLAYER1`, `PLAYER2` in the source. -/
inductive Piece : Type where
  | empty : Piece
  | pl1 : Piece
  | pl2 : Piece
deriving DecidableEq, Repr

/-- The two players.  Functions of the source that expect an actual player
(the `_OTHER_PLAYER` dictionary has exactly the keys `PLAYER1`, `PLAYER2`)
take this type rather than `Piece`. -/
inductive Player : Type where
  | one : Player
  | two : Player
deriving DecidableEq, Repr

/-- The board piece a player places: `PLAYER1 = 1`, `PLAYER2 = 2`. -/
def Player.piece : Player → Piece
  | .one => .pl1
  | .two => .pl2

/-- The `_OTHER_PLAYER` dictionary of the source. -/
def Player.other : Player → Player
  | .one => .two
  | .two => .one

theorem Player.piece_ne_empty (p : Player) : p.piece ≠ Piece.empty := by
  cases p <;> simp [Player.piece]

theorem Player.piece_injective : ∀ p q : Player, p.piece = q.piece → p = q := by
  intro p q
  cases p <;> cases q <;> simp [Player.piece]

theorem Player.other_ne (p : Player) : p.other ≠ p := by
  cases p <;> simp [Player.other]

abbrev ROWS : Nat := 6
abbrev COLS : Nat := 7

/-- A board: `board[i, j]` with row 0 at the bottom, mirroring the numpy
array of shape `(6, 7)`. -/
abbrev Board := Fin ROWS → Fin COLS → Piece

/-- `board[-1]` in the source: the top row. -/
def topRow : Fin ROWS := ⟨ROWS - 1, by decide⟩

/-- `_get_legal_moves` (game_utils): all columns whose top cell is empty,
in ascending column order. -/
def _get_legal_moves (b : Board) : List (Fin COLS) :=
  (List.finRange COLS).filter (fun c => b topRow c == Piece.empty)

/-- Legal moves as plain column numbers (`PlayerAction` values). -/
def legalMovesN (b : Board) : List Nat := (_get_legal_moves b).map Fin.val

theorem mem_legalMovesN_lt {b : Board} {a : Nat} (h : a ∈ legalMovesN b) :
    a < COLS := by
  rcases List.mem_map.mp h with ⟨c, _, rfl⟩
  exact c.isLt

theorem mem_legalMovesN_iff {b : Board} {a : Nat} :
    a ∈ legalMovesN b ↔ ∃ hc : a < COLS, b topRow ⟨a, hc⟩ = Piece.empty := by
  constructor
  · intro h
    rcases List.mem_map.mp h with ⟨c, hc, rfl⟩
    rcases List.mem_filter.mp hc with ⟨-, hb⟩
    exact ⟨c.isLt, by simpa using hb⟩
  · rintro ⟨hc, hb⟩
    exact List.mem_map.mpr ⟨⟨a, hc⟩,
      List.mem_filter.mpr ⟨List.mem_finRange _, by simpa using hb⟩, rfl⟩

/-- `apply_player_action` (game_utils): checks legality (raising
`ValueError`, i.e. `none`, if the move is not legal), then fills the
lowest empty row of the chosen column — `np.argmin` on the 0/1 mask of the
column returns the first (lowest) index whose cell is empty.  The input
board is never mutated: the source copies the board before writing, and
here the function is pure.  The `none` branch of the inner match is
unreachable for a legal move (the top cell of the column is empty). -/
def apply_player_action (b : Board) (action : Nat) (player : Player) : Option Board :=
  if h : action ∈ legalMovesN b then
    let c : Fin COLS := ⟨action, mem_legalMovesN_lt h⟩
    match Fin.find (fun i : Fin ROWS => b i c = Piece.empty) with
    | some fill_level =>
      some (fun i j => if i = fill_level ∧ j = c then player.piece else b i j)
    | none => none
  else none

theorem apply_player_action_of_not_legal {b : Board} {a : Nat} {p : Player}
    (h : a ∉ legalMovesN b) : apply_player_action b a p = none := by
  simp [apply_player_action, h]

theorem apply_player_action_isSome {b : Board} {a : Nat} {p : Player}
    (h : a ∈ legalMovesN b) : ∃ b', apply_player_action b a p = some b' := by
  rcases mem_legalMovesN_iff.mp h with ⟨hc, hb⟩
  have hfind : (Fin.find (fun i : Fin ROWS =>
      b i ⟨a, mem_legalMovesN_lt h⟩ = Piece.empty)).isSome := by
    rw [Fin.isSome_find_iff]
    exact ⟨topRow, hb⟩
  rcases Option.isSome_iff_exists.mp hfind with ⟨r, hr⟩
  exact ⟨fun i j => if i = r ∧ j = ⟨a, mem_legalMovesN_lt h⟩ then p.piece else b i j,
    by simp only [apply_player_action, dif_pos h, hr]⟩

/-- Full characterisation of a successful move: result board, the filled
cell, and the fact that the filled row is the lowest empty row. -/
theorem apply_player_action_eq_some {b b' : Board} {a : Nat} {p : Player}
    (h : apply_player_action b a p = some b') :
    ∃ (hc : a < COLS) (r : Fin ROWS),
      a ∈ legalMovesN b ∧
      b r ⟨a, hc⟩ = Piece.empty ∧
      (∀ i : Fin ROWS, (i : Nat) < (r : Nat) → b i ⟨a, hc⟩ ≠ Piece.empty) ∧
      b' = fun i j => if i = r ∧ j = ⟨a, hc⟩ then p.piece else b i j := by
  by_cases hleg : a ∈ legalMovesN b
  · have hc := mem_legalMovesN_lt hleg
    have h' := h
    simp only [apply_player_action, dif_pos hleg] at h'
    rcases hfind : Fin.find (fun i : Fin ROWS => b i ⟨a, hc⟩ = Piece.empty) with _ | r
    · rw [hfind] at h'
      exact absurd h' (by simp)
    · rw [hfind] at h'
      rcases Fin.find_eq_some_iff.mp hfind with ⟨hempty, hmin⟩
      refine ⟨hc, r, hleg, hempty, ?_, ?_⟩
      · intro i hi hcontra
        exact absurd (hmin i hcontra) (by omega)
      · exact (Option.some.injEq _ _ ▸ h').symm
  · rw [apply_player_action_of_not_legal hleg] at h
    exact absurd h (by simp)

/-- `initialize_game_state` (game_utils): a board filled with `NO_PLAYER`. -/
def initialize_game_state : Board := fun _ _ => Piece.empty

/-- Claim C7: for every board `B`, player `p` and column `c`: if `c` is a
legal move of `B`, `apply_player_action` returns a new board that differs
from `B` in exactly one cell, namely the lowest empty row of column `c`
set to `p` (the cell below which no cell of the column is empty); if `c`
is not a legal move (column full or out of range) it raises a
`ValueError`, modelled as `none`.  The input board is left unmodified by
construction: the embedding is pure and the source copies the array
before writing. -/
theorem C7_apply_player_action (b : Board) (action : Nat) (p : Player) :
    (action ∈ legalMovesN b →
      ∃ (hc : action < COLS) (r : Fin ROWS) (b' : Board),
        apply_player_action b action p = some b' ∧
        b r ⟨action, hc⟩ = Piece.empty ∧
        (∀ i : Fin ROWS, (i : Nat) < (r : Nat) → b i ⟨action, hc⟩ ≠ Piece.empty) ∧
        b' r ⟨action, hc⟩ = p.piece ∧
        b' r ⟨action, hc⟩ ≠ b r ⟨action, hc⟩ ∧
        (∀ (i : Fin ROWS) (j : Fin COLS), ¬(i = r ∧ j = ⟨action, hc⟩) → b' i j = b i j)) ∧
    (action ∉ legalMovesN b → apply_player_action b action p = none) := by
  constructor
  · intro hleg
    rcases apply_player_action_isSome (p := p) hleg with ⟨b', hb'⟩
    rcases apply_player_action_eq_some hb' with ⟨hc, r, -, hempty, hlowest, hform⟩
    refine ⟨hc, r, b', hb', hempty, hlowest, ?_, ?_, ?_⟩
    · rw [hform]; simp
    · rw [hform]; simp [hempty, Player.piece_ne_empty]
    · intro i j hij
      rw [hform]; simp [hij]
  · exact apply_player_action_of_not_legal

/-- Witness for C7: a concrete legal move (column 3 of the empty board)
and a concrete illegal one (column 9, out of range). -/
theorem C7_apply_player_action_witness :
    (∃ (hc : (3 : Nat) < COLS) (r : Fin ROWS) (b' : Board),
      apply_player_action initialize_game_state 3 Player.one = some b' ∧
      initialize_game_state r ⟨3, hc⟩ = Piece.empty ∧
      (∀ i : Fin ROWS, (i : Nat) < (r : Nat) →
        initialize_game_state i ⟨3, hc⟩ ≠ Piece.empty) ∧
      b' r ⟨3, hc⟩ = Player.one.piece ∧
      b' r ⟨3, hc⟩ ≠ initialize_game_state r ⟨3, hc⟩ ∧
      (∀ (i : Fin ROWS) (j : Fin COLS), ¬(i = r ∧ j = ⟨3, hc⟩) →
        b' i j = initialize_game_state i j)) ∧
    apply_player_action initialize_game_state 9 Player.one = none :=
  ⟨(C7_apply_player_action initialize_game_state 3 Player.one).1 (by decide),
   (C7_apply_player_action initialize_game_state 9 Player.one).2 (by decide)⟩

/-! ### Win and end-state detection (game_utils) -/

/-- Board access by plain indices, defaulting to empty out of range (all
accesses below stay in range). -/
def cellN (b : Board) (i j : Nat) : Piece :=
  if h : i < ROWS ∧ j < COLS then b ⟨i, h.1⟩ ⟨j, h.2⟩ else Piece.empty

/-- `connected_four` (game_utils, numba variant): scans all horizontal,
vertical and diagonal windows of length 4.  The loop bounds `range(rows - x + 1)`
and `range(cols - x + 1)` are written `ROWS + 1 - 4` / `COLS + 1 - 4` so that
truncated subtraction agrees with Python's empty ranges.  `block[::-1]` reverses
the rows of the 4×4 block, so its diagonal is `board[i+3-k, j+k]`. -/
def connected_four (b : Board) (p : Player) : Bool :=
  ((List.range ROWS).any fun i => (List.range (COLS + 1 - 4)).any fun j =>
    (List.range 4).all fun k => cellN b i (j + k) == p.piece) ||
  ((List.range (ROWS + 1 - 4)).any fun i => (List.range COLS).any fun j =>
    (List.range 4).all fun k => cellN b (i + k) j == p.piece) ||
  ((List.range (ROWS + 1 - 4)).any fun i => (List.range (COLS + 1 - 4)).any fun j =>
    ((List.range 4).all fun k => cellN b (i + k) (j + k) == p.piece) ||
    ((List.range 4).all fun k => cellN b (i + 3 - k) (j + k) == p.piece))

/-- `GameState` (game_utils). -/
inductive GameState : Type where
  | IS_WIN : GameState
  | IS_DRAW : GameState
  | STILL_PLAYING : GameState
deriving DecidableEq, Repr

/-- `check_end_state` (game_utils): win if `connected_four`, else draw if
the board is full (no legal moves), else still playing. -/
def check_end_state (b : Board) (p : Player) : GameState :=
  if connected_four b p then GameState.IS_WIN
  else if (legalMovesN b).length = 0 then GameState.IS_DRAW
  else GameState.STILL_PLAYING

/-- Specification-level predicate: `p` occupies 4 cells in an unbroken
horizontal, vertical or diagonal line of the board.  Written from the
spec's words, independently of the loop structure of `connected_four`. -/
def hasLine (b : Board) (p : Player) : Prop :=
  (∃ i j, i < ROWS ∧ j + 3 < COLS ∧ ∀ k, k < 4 → cellN b i (j + k) = p.piece) ∨
  (∃ i j, i + 3 < ROWS ∧ j < COLS ∧ ∀ k, k < 4 → cellN b (i + k) j = p.piece) ∨
  (∃ i j, i + 3 < ROWS ∧ j + 3 < COLS ∧ ∀ k, k < 4 → cellN b (i + k) (j + k) = p.piece) ∨
  (∃ i j, i + 3 < ROWS ∧ j + 3 < COLS ∧ ∀ k, k < 4 → cellN b (i + 3 - k) (j + k) = p.piece)

theorem connected_four_eq_true_iff (b : Board) (p : Player) :
    connected_four b p = true ↔ hasLine b p := by
  simp only [connected_four, Bool.or_eq_true, List.any_eq_true, List.all_eq_true,
    List.mem_range, beq_iff_eq]
  unfold hasLine
  constructor
  · rintro ((⟨i, hi, j, hj, hk⟩ | ⟨i, hi, j, hj, hk⟩) | ⟨i, hi, j, hj, (hk | hk)⟩)
    · exact Or.inl ⟨i, j, hi, by omega, hk⟩
    · exact Or.inr (Or.inl ⟨i, j, by omega, hj, hk⟩)
    · exact Or.inr (Or.inr (Or.inl ⟨i, j, by omega, by omega, hk⟩))
    · exact Or.inr (Or.inr (Or.inr ⟨i, j, by omega, by omega, hk⟩))
  · rintro (⟨i, j, hi, hj, hk⟩ | ⟨i, j, hi, hj, hk⟩ | ⟨i, j, hi, hj, hk⟩ | ⟨i, j, hi, hj, hk⟩)
    · exact Or.inl (Or.inl ⟨i, hi, j, by omega, hk⟩)
    · exact Or.inl (Or.inr ⟨i, by omega, j, hj, hk⟩)
    · exact Or.inr ⟨i, by omega, j, by omega, Or.inl hk⟩
    · exact Or.inr ⟨i, by omega, j, by omega, Or.inr hk⟩

/-- Claim C8: `check_end_state board p` returns `IS_WIN` iff `p` occupies
4 cells in an unbroken horizontal, vertical or either-diagonal line;
returns `IS_DRAW` iff no legal moves remain (every column's top cell is
filled) and `p` has no such line; and returns `STILL_PLAYING` otherwise. -/
theorem C8_check_end_state (b : Board) (p : Player) :
    (check_end_state b p = GameState.IS_WIN ↔ hasLine b p) ∧
    (check_end_state b p = GameState.IS_DRAW ↔
      ((legalMovesN b).length = 0 ∧ ¬ hasLine b p)) ∧
    (check_end_state b p = GameState.STILL_PLAYING ↔
      ((legalMovesN b).length ≠ 0 ∧ ¬ hasLine b p)) ∧
    ((legalMovesN b).length = 0 ↔ ∀ c : Fin COLS, b topRow c ≠ Piece.empty) := by
  have hfull : (legalMovesN b).length = 0 ↔ ∀ c : Fin COLS, b topRow c ≠ Piece.empty := by
    rw [List.length_eq_zero]
    constructor
    · intro hnil c hc
      have : (c : Nat) ∈ legalMovesN b := mem_legalMovesN_iff.mpr ⟨c.isLt, by
        convert hc using 2⟩
      simp [hnil] at this
    · intro hall
      by_contra hne
      rcases List.exists_mem_of_ne_nil _ hne with ⟨a, ha⟩
      rcases mem_legalMovesN_iff.mp ha with ⟨hc, hb⟩
      exact hall ⟨a, hc⟩ hb
  refine ⟨?_, ?_, ?_, hfull⟩ <;>
    · rw [← connected_four_eq_true_iff]
      unfold check_end_state
      by_cases hwin : connected_four b p = true <;>
        by_cases hlen : (legalMovesN b).length = 0 <;>
          simp [hwin, hlen]

/-! ### Selection / update policies (mcts_logics) -/

/-- The statistics dictionary of the UCB1 logic: keys `'w'`, `'s'`, `'draw'`.
Python integers are modelled by `Int`. -/
structure UCBStats : Type where
  w : Int
  s : Int
  draw : Int
deriving DecidableEq, Repr

/-- A possibly-empty statistics dictionary; `none` models the empty dict `{}`
that every `SearchTree` node starts with. -/
abbrev UStats := Option UCBStats

/-- The winner of a simulated game: `NO_PLAYER` (a draw) is `none`. -/
abbrev Winner := Option Player

namespace UCB1

/-- `UCB1.update`: default `{'w': 0, 's': 0, 'draw': 0}` on the empty dict,
then increment `draw` on a draw, `w` on a player-1 win, and always `s`. -/
def update (stats : UStats) (winner : Winner) : UStats :=
  let st0 := stats.getD ⟨0, 0, 0⟩
  let st1 := if winner = none then { st0 with draw := st0.draw + 1 } else st0
  let st2 := if winner = some Player.one then { st1 with w := st1.w + 1 } else st1
  some { st2 with s := st2.s + 1 }

/-- `_frac_wins` (ucb1.py): `w` (flipped to `s - w` for player 2) over
`s - draw`, and `0` when that denominator is zero. -/
def _frac_wins (stats : UCBStats) (player : Player) : ℚ :=
  let w : Int := if player = Player.two then stats.s - stats.w else stats.w
  let n : Int := stats.s - stats.draw
  if n = 0 then 0 else (w : ℚ) / (n : ℚ)

/-- `UCB1.select`: win fraction plus the exploration bonus
`c * sqrt(log(parent_s) / s)`. -/
noncomputable def select (c : ℝ) (stats parent_stats : UCBStats) (player : Player) : ℝ :=
  (_frac_wins stats player : ℝ) +
    c * Real.sqrt (Real.log (parent_stats.s : ℝ) / (stats.s : ℝ))

/-- The default exploration constant of `UCB1.__init__`. -/
noncomputable def c_default : ℝ := Real.sqrt 2

/-- `UCB1._action_choice_metric`: the win fraction per action, no
exploration term. -/
def _action_choice_metric (action_stats : List (Nat × UCBStats)) (player : Player) :
    List (Nat × ℚ) :=
  action_stats.map (fun as => (as.1, _frac_wins as.2 player))

/-- `UCB1.merge_stats`: start from a copy of `stats1` and add `stats2`'s
`'w'` and `'s'` — the `'draw'` key keeps `stats1`'s value. -/
def merge_stats (stats1 stats2 : UStats) : UStats :=
  let s1 := stats1.getD ⟨0, 0, 0⟩
  let s2 := stats2.getD ⟨0, 0, 0⟩
  some { s1 with w := s1.w + s2.w, s := s1.s + s2.s }

end UCB1

/-- The statistics dictionary of the Beta logic: keys `'a'`, `'b'`, `'draw'`. -/
structure BetaStats : Type where
  a : Int
  b : Int
  draw : Int
deriving DecidableEq, Repr

abbrev BStats := Option BetaStats

namespace Beta

/-- `Beta.update`: default `{'a': 1, 'b': 1, 'draw': 0}` on the empty dict,
then increment `a` on a player-1 win, `b` on a player-2 win, `draw` else. -/
def update (stats : BStats) (winner : Winner) : BStats :=
  let st := stats.getD ⟨1, 1, 0⟩
  match winner with
  | some Player.one => some { st with a := st.a + 1 }
  | some Player.two => some { st with b := st.b + 1 }
  | none => some { st with draw := st.draw + 1 }

/-- `Beta.merge_stats`: start from a copy of `stats1` and add `stats2`'s
pseudo-counts minus the prior — the `'draw'` key keeps `stats1`'s value. -/
def merge_stats (stats1 stats2 : BStats) : BStats :=
  let s1 := stats1.getD ⟨1, 1, 0⟩
  let s2 := stats2.getD ⟨1, 1, 0⟩
  some { s1 with a := s1.a + s2.a - 1, b := s1.b + s2.b - 1 }

end Beta

/-- Claim C10: both policies' `merge_stats` discard the second argument's
draw counter (`'draw'` keeps `stats1`'s value), hence merging is not
commutative in the draw counter. -/
theorem C10_merge_stats_discard_draw :
    (∀ s1 s2 : UCBStats, UCB1.merge_stats (some s1) (some s2) =
      some ⟨s1.w + s2.w, s1.s + s2.s, s1.draw⟩) ∧
    (∀ s1 s2 : BetaStats, Beta.merge_stats (some s1) (some s2) =
      some ⟨s1.a + s2.a - 1, s1.b + s2.b - 1, s1.draw⟩) ∧
    (∃ s1 s2 : UCBStats, UCB1.merge_stats (some s1) (some s2) ≠
      UCB1.merge_stats (some s2) (some s1)) ∧
    (∃ s1 s2 : BetaStats, Beta.merge_stats (some s1) (some s2) ≠
      Beta.merge_stats (some s2) (some s1)) := by
  refine ⟨?_, ?_, ⟨⟨0, 0, 0⟩, ⟨0, 0, 1⟩, by decide⟩, ⟨⟨1, 1, 0⟩, ⟨1, 1, 1⟩, by decide⟩⟩
  · intro s1 s2; cases s1; cases s2; rfl
  · intro s1 s2; cases s1; cases s2; rfl

/-- For a stats blob `{w, s, draw}` read as `s` recorded playouts of which
`w` were won by player 1 and `draw` were drawn, the number of playouts won
by a given player. -/
def wonBy (st : UCBStats) : Player → Int
  | Player.one => st.w
  | Player.two => st.s - st.w - st.draw

/-- Counterexample to claim C3: on the stats blob `{w := 1, s := 3,
draw := 1}` (one playout won by each player, one drawn), the value
`_frac_wins` computes for player 2 is `1`, not the fraction `1/2` of
non-draw playouts won by player 2 that the claim asserts. -/
theorem C3_counterexample :
    UCB1._frac_wins ⟨1, 3, 1⟩ Player.two ≠
      (wonBy ⟨1, 3, 1⟩ Player.two : ℚ) / ((3 : ℚ) - 1) := by
  norm_num [UCB1._frac_wins, wonBy]

theorem frac_wins_one (st : UCBStats) :
    UCB1._frac_wins st Player.one = (st.w : ℚ) / ((st.s : ℚ) - (st.draw : ℚ)) := by
  unfold UCB1._frac_wins
  by_cases hn : st.s - st.draw = 0
  · have : (st.s : ℚ) - (st.draw : ℚ) = 0 := by
      have := congrArg (Int.cast : Int → ℚ) hn
      push_cast at this
      linarith
    simp [hn, this]
  · have : ((st.s - st.draw : Int) : ℚ) = (st.s : ℚ) - (st.draw : ℚ) := by push_cast; ring
    simp [hn, this]

theorem frac_wins_two (st : UCBStats) :
    UCB1._frac_wins st Player.two =
      ((st.s : ℚ) - (st.w : ℚ)) / ((st.s : ℚ) - (st.draw : ℚ)) := by
  unfold UCB1._frac_wins
  by_cases hn : st.s - st.draw = 0
  · have : (st.s : ℚ) - (st.draw : ℚ) = 0 := by
      have := congrArg (Int.cast : Int → ℚ) hn
      push_cast at this
      linarith
    simp [hn, this]
  · have hcast : ((st.s - st.draw : Int) : ℚ) = (st.s : ℚ) - (st.draw : ℚ) := by
      push_cast; ring
    have hcast2 : ((st.s - st.w : Int) : ℚ) = (st.s : ℚ) - (st.w : ℚ) := by
      push_cast; ring
    simp [hn, hcast, hcast2]

/-- Claim C3, amended: `_frac_wins` — the exploitation value used both as
the first term of `select` and as the value `_action_choice_metric`
returns — equals `w / (s - draw)` for player 1, but for player 2 it equals
`(s - w) / (s - draw)`, i.e. `(playouts won by player 2 + draws) / (s - draw)`:
draws are excluded from the denominator but counted in player 2's
numerator (so it is the claimed fraction for player 2 only when `draw = 0`).
`select` adds the exploration bonus `c * sqrt(ln(parent s) / own s)`, with
default `c = sqrt 2`. -/
theorem C3_ucb1_select_amended (c : ℝ) (st parent : UCBStats) (pl : Player)
    (l : List (Nat × UCBStats)) :
    UCB1._frac_wins st Player.one = (st.w : ℚ) / ((st.s : ℚ) - (st.draw : ℚ)) ∧
    UCB1._frac_wins st Player.two =
      ((st.s : ℚ) - (st.w : ℚ)) / ((st.s : ℚ) - (st.draw : ℚ)) ∧
    ((st.draw : ℚ) = 0 →
      UCB1._frac_wins st Player.two =
        (wonBy st Player.two : ℚ) / ((st.s : ℚ) - (st.draw : ℚ))) ∧
    UCB1.select c st parent pl =
      (UCB1._frac_wins st pl : ℝ) +
        c * Real.sqrt (Real.log (parent.s : ℝ) / (st.s : ℝ)) ∧
    UCB1._action_choice_metric l pl = l.map (fun as => (as.1, UCB1._frac_wins as.2 pl)) ∧
    UCB1.c_default = Real.sqrt 2 := by
  refine ⟨frac_wins_one st, frac_wins_two st, ?_, rfl, rfl, rfl⟩
  intro hdz
  rw [frac_wins_two]
  have : (wonBy st Player.two : ℚ) = (st.s : ℚ) - (st.w : ℚ) - (st.draw : ℚ) := by
    unfold wonBy; push_cast; ring
  rw [this, hdz]
  ring_nf

/-- Per-winner counting lemma for `UCB1.update` folds. -/
theorem ucb1_update_foldl (ws : List Winner) (st : UCBStats) :
    List.foldl UCB1.update (some st) ws =
      some ⟨st.w + ws.count (some Player.one), st.s + ws.length,
            st.draw + ws.count none⟩ := by
  induction ws generalizing st with
  | nil => simp
  | cons w tail ih =>
    rcases w with _ | p
    · rw [List.foldl_cons]
      have : UCB1.update (some st) none = some ⟨st.w, st.s + 1, st.draw + 1⟩ := by
        simp [UCB1.update]
      rw [this, ih]
      simp [List.count_cons, UCBStats.mk.injEq]
      omega
    · rcases p with _ | _
      · rw [List.foldl_cons]
        have : UCB1.update (some st) (some Player.one) =
            some ⟨st.w + 1, st.s + 1, st.draw⟩ := by
          simp [UCB1.update]
        rw [this, ih]
        simp [List.count_cons, UCBStats.mk.injEq]
        omega
      · rw [List.foldl_cons]
        have : UCB1.update (some st) (some Player.two) =
            some ⟨st.w, st.s + 1, st.draw⟩ := by
          simp [UCB1.update]
        rw [this, ih]
        simp [List.count_cons, UCBStats.mk.injEq]
        omega

theorem count_one_add_count_two (ws : List Winner) (hnd : ∀ x ∈ ws, x ≠ none) :
    ws.count (some Player.one) + ws.count (some Player.two) = ws.length := by
  induction ws with
  | nil => simp
  | cons w tail ih =>
    have hw := hnd w (by simp)
    have htail : ∀ x ∈ tail, x ≠ none := fun x hx => hnd x (by simp [hx])
    rcases w with _ | p
    · exact absurd rfl hw
    · rcases p with _ | _ <;> · simp [List.count_cons, ← ih htail]; omega

/-- Claim C6: starting from the empty stats dict, applying `UCB1.update`
for a sequence of `N` player-1 wins and `M` player-2 wins in any
interleaving (no draws, `N + M ≥ 1`) yields stats on which
`_action_choice_metric` from player 1's perspective is `N / (N + M)`. -/
theorem C6_ucb1_update_consistency (ws : List Winner)
    (hnd : ∀ x ∈ ws, x ≠ none) (hne : ws ≠ []) :
    ∃ st : UCBStats,
      List.foldl UCB1.update (none : UStats) ws = some st ∧
      UCB1._action_choice_metric [(0, st)] Player.one =
        [(0, (ws.count (some Player.one) : ℚ) /
          ((ws.count (some Player.one) : ℚ) + (ws.count (some Player.two) : ℚ)))] := by
  rcases ws with _ | ⟨w, tail⟩
  · exact absurd rfl hne
  have hw := hnd w (by simp)
  have htail : ∀ x ∈ tail, x ≠ none := fun x hx => hnd x (by simp [hx])
  have hcnt := count_one_add_count_two (w :: tail) hnd
  have hdraw0 : tail.count (none : Winner) = 0 :=
    List.count_eq_zero.mpr (fun h => htail none h rfl)
  have hrun : ∃ st : UCBStats,
      List.foldl UCB1.update (none : UStats) (w :: tail) = some st ∧
      st.w = (w :: tail).count (some Player.one) ∧
      st.s = (w :: tail).length ∧ st.draw = 0 := by
    rcases w with _ | p
    · exact absurd rfl hw
    rcases p with _ | _
    · have h0 : UCB1.update (none : UStats) (some Player.one) = some ⟨1, 1, 0⟩ := by
        simp [UCB1.update]
      rw [List.foldl_cons, h0, ucb1_update_foldl]
      refine ⟨_, rfl, ?_, ?_, ?_⟩ <;>
        simp [List.count_cons, hdraw0] <;> omega
    · have h0 : UCB1.update (none : UStats) (some Player.two) = some ⟨0, 1, 0⟩ := by
        simp [UCB1.update]
      rw [List.foldl_cons, h0, ucb1_update_foldl]
      refine ⟨_, rfl, ?_, ?_, ?_⟩ <;>
        simp [List.count_cons, hdraw0] <;> omega
  rcases hrun with ⟨st, hfold, hwc, hsc, hdc⟩
  refine ⟨st, hfold, ?_⟩
  unfold UCB1._action_choice_metric
  simp only [List.map]
  congr 1
  congr 1
  rw [frac_wins_one, hwc, hsc, hdc, ← hcnt]
  push_cast
  ring_nf

/-- Witness for C6: one player-1 win then one player-2 win. -/
theorem C6_ucb1_update_consistency_witness :
    ∃ st : UCBStats,
      List.foldl UCB1.update (none : UStats)
        [some Player.one, some Player.two] = some st ∧
      UCB1._action_choice_metric [(0, st)] Player.one =
        [(0, (([some Player.one, some Player.two] : List Winner).count
            (some Player.one) : ℚ) /
          ((([some Player.one, some Player.two] : List Winner).count
            (some Player.one) : ℚ) +
           (([some Player.one, some Player.two] : List Winner).count
            (some Player.two) : ℚ)))] :=
  C6_ucb1_update_consistency [some Player.one, some Player.two]
    (by decide) (by decide)

/-! ### Root relocation (mcts.py) -/

theorem Player.other_piece_ne (p : Player) : p.other.piece ≠ p.piece := by
  cases p <;> decide

/-- Number of empty cells of a board (used as a termination measure: every
successful move fills exactly one formerly-empty cell). -/
def emptyCount (b : Board) : Nat :=
  (Finset.univ.filter (fun ij : Fin ROWS × Fin COLS => b ij.1 ij.2 = Piece.empty)).card

theorem emptyCount_apply {b b' : Board} {a : Nat} {p : Player}
    (h : apply_player_action b a p = some b') :
    emptyCount b' + 1 = emptyCount b := by
  obtain ⟨hc, r, -, hempty, -, hform⟩ := apply_player_action_eq_some h
  have hmem : (r, (⟨a, hc⟩ : Fin COLS)) ∈
      Finset.univ.filter (fun ij : Fin ROWS × Fin COLS => b ij.1 ij.2 = Piece.empty) := by
    simp [hempty]
  have hset : Finset.univ.filter (fun ij : Fin ROWS × Fin COLS => b' ij.1 ij.2 = Piece.empty) =
      (Finset.univ.filter
        (fun ij : Fin ROWS × Fin COLS => b ij.1 ij.2 = Piece.empty)).erase
          (r, (⟨a, hc⟩ : Fin COLS)) := by
    ext ⟨i, j⟩
    simp only [Finset.mem_filter, Finset.mem_erase, Finset.mem_univ, true_and, hform]
    by_cases hij : i = r ∧ j = ⟨a, hc⟩
    · rcases hij with ⟨rfl, rfl⟩
      simp [Player.piece_ne_empty]
    · simp only [if_neg hij]
      have : ¬((i, j) = (r, (⟨a, hc⟩ : Fin COLS))) := by
        simp only [Prod.mk.injEq]
        exact hij
      simp [this]
  rw [emptyCount, emptyCount, hset, Finset.card_erase_of_mem hmem]
  have hpos : 0 < (Finset.univ.filter
      (fun ij : Fin ROWS × Fin COLS => b ij.1 ij.2 = Piece.empty)).card :=
    Finset.card_pos.mpr ⟨_, hmem⟩
  omega

theorem emptyCount_lt_of_apply {b b' : Board} {a : Nat} {p : Player}
    (h : apply_player_action b a p = some b') : emptyCount b' < emptyCount b := by
  have := emptyCount_apply h
  omega

theorem legalMovesN_length_le (b : Board) : (legalMovesN b).length ≤ COLS := by
  unfold legalMovesN _get_legal_moves
  rw [List.length_map]
  calc ((List.finRange COLS).filter _).length ≤ (List.finRange COLS).length :=
        List.length_filter_le _ _
    _ = COLS := List.length_finRange _

/-- `_is_possible_predecessor` (mcts.py): where the future board is empty
the initial board must be empty, and where the initial board is non-empty
the future board must hold the same piece (both checks are numpy `.all()`
reductions over the cells). -/
def _is_possible_predecessor (board0 board1 : Board) : Bool :=
  ((List.finRange ROWS).all fun i => (List.finRange COLS).all fun j =>
    decide (board1 i j = Piece.empty → board0 i j = Piece.empty)) &&
  ((List.finRange ROWS).all fun i => (List.finRange COLS).all fun j =>
    decide (board0 i j ≠ Piece.empty → board1 i j = board0 i j))

theorem possiblePred_iff {b0 b1 : Board} :
    _is_possible_predecessor b0 b1 = true ↔
      ((∀ i j, b1 i j = Piece.empty → b0 i j = Piece.empty) ∧
       (∀ i j, b0 i j ≠ Piece.empty → b1 i j = b0 i j)) := by
  simp only [_is_possible_predecessor, Bool.and_eq_true, List.all_eq_true,
    List.mem_finRange, decide_eq_true_iff, true_implies]

theorem possiblePred_of_apply {b b' : Board} {a : Nat} {p : Player}
    (h : apply_player_action b a p = some b') :
    _is_possible_predecessor b b' = true := by
  obtain ⟨hc, r, -, hempty, -, hform⟩ := apply_player_action_eq_some h
  rw [possiblePred_iff]
  constructor
  · intro i j hb1
    by_cases hij : i = r ∧ j = ⟨a, hc⟩
    · rcases hij with ⟨rfl, rfl⟩
      exact hempty
    · rw [hform] at hb1
      simpa [hij] using hb1
  · intro i j hb0
    by_cases hij : i = r ∧ j = ⟨a, hc⟩
    · rcases hij with ⟨rfl, rfl⟩
      exact absurd hempty hb0
    · rw [hform]
      simp [hij]

theorem possiblePred_trans {b0 b1 b2 : Board}
    (h01 : _is_possible_predecessor b0 b1 = true)
    (h12 : _is_possible_predecessor b1 b2 = true) :
    _is_possible_predecessor b0 b2 = true := by
  rw [possiblePred_iff] at h01 h12 ⊢
  rcases h01 with ⟨he01, hn01⟩
  rcases h12 with ⟨he12, hn12⟩
  constructor
  · intro i j h2
    exact he01 i j (he12 i j h2)
  · intro i j h0
    have h1 := hn01 i j h0
    rw [hn12 i j (h1 ▸ h0), h1]

/-- `(board == root_board).all()` in the source: cell-wise board equality. -/
def boardEq (a b : Board) : Bool :=
  (List.finRange ROWS).all fun i => (List.finRange COLS).all fun j => a i j == b i j

theorem boardEq_iff {a b : Board} : boardEq a b = true ↔ a = b := by
  unfold boardEq
  simp only [List.all_eq_true, List.mem_finRange, beq_iff_eq, true_implies]
  constructor
  · intro h
    funext i j
    exact h i j
  · intro h i j
    rw [h]

/-- Proving a concrete `apply_player_action` result by cell-wise
comparison (the `Option Board` equality itself is not kernel-decidable). -/
theorem apply_eq_some_of_boardEq {b b' : Board} {a : Nat} {p : Player}
    (h : (apply_player_action b a p).map (fun r => boardEq r b') = some true) :
    apply_player_action b a p = some b' := by
  rcases happ : apply_player_action b a p with _ | r
  · rw [happ] at h
    cases h
  · rw [happ] at h
    simp only [Option.map_some'] at h
    injection h with h
    exact congrArg some (boardEq_iff.mp h)

/-- Replaying a sequence of moves with alternating players, starting with
`p` (the reference semantics of a "sequence of alternating legal moves"). -/
def replay (b : Board) (p : Player) : List Nat → Option Board
  | [] => some b
  | m :: ms =>
    match apply_player_action b m p with
    | some b' => replay b' p.other ms
    | none => none

mutual

/-- `_find_connecting_action_sequence` (mcts.py): a depth-first search for
the move sequence leading from `root_board` to `board`, pruned by
`_is_possible_predecessor`. -/
def _find_connecting_action_sequence (root_board board : Board) (player : Player) :
    Bool × List Nat :=
  match boardEq board root_board with
  | true => (true, [])
  | false =>
    match _is_possible_predecessor root_board board with
    | false => (false, [])
    | true => findLoop root_board board player (legalMovesN root_board)
termination_by (9 * emptyCount root_board + 8 : Nat)
decreasing_by
· have hlen : (legalMovesN root_board).length ≤ 7 := legalMovesN_length_le root_board
  omega

/-- The `for move in _get_legal_moves(root_board)` loop of
`_find_connecting_action_sequence`: try each legal move in order, return
the first whose recursive search succeeds.  The `none` branch of the inner
match is unreachable (every tried move is legal). -/
def findLoop (root_board board : Board) (player : Player) : List Nat → Bool × List Nat
  | [] => (false, [])
  | move :: rest =>
    match h : apply_player_action root_board move player with
    | none => findLoop root_board board player rest
    | some child =>
      match _find_connecting_action_sequence child board player.other with
      | (true, moves) => (true, move :: moves)
      | (false, _) => findLoop root_board board player rest
termination_by ms => (9 * emptyCount root_board + ms.length : Nat)
decreasing_by
· simp only [List.length_cons]
  omega
· have hlt := emptyCount_lt_of_apply h
  omega
· simp only [List.length_cons]
  omega

end

theorem find_sound_aux (N : Nat) : ∀ (b0 b1 : Board) (p : Player), emptyCount b0 < N →
    (∀ ms, _find_connecting_action_sequence b0 b1 p = (true, ms) →
      replay b0 p ms = some b1) ∧
    (∀ (l : List Nat) (ms : List Nat), findLoop b0 b1 p l = (true, ms) →
      replay b0 p ms = some b1) := by
  induction N with
  | zero => intro b0 b1 p h; exact absurd h (by omega)
  | succ N ih =>
    intro b0 b1 p hN
    have hloop : ∀ (l : List Nat) (ms : List Nat), findLoop b0 b1 p l = (true, ms) →
        replay b0 p ms = some b1 := by
      intro l
      induction l with
      | nil =>
        intro ms hf
        unfold findLoop at hf
        exact absurd hf (by simp)
      | cons m rest ihl =>
        intro ms hf
        unfold findLoop at hf
        split at hf
        · exact ihl ms hf
        · rename_i child happly
          split at hf
          · rename_i moves hfind
            cases hf
            have hchild : emptyCount child < N := by
              have h1 := emptyCount_lt_of_apply happly
              omega
            have hrec := (ih child b1 p.other hchild).1 moves hfind
            simp only [replay, happly]
            exact hrec
          · exact ihl ms hf
    refine ⟨?_, hloop⟩
    intro ms hf
    unfold _find_connecting_action_sequence at hf
    split at hf
    · rename_i heq
      cases hf
      have heq' : b1 = b0 := boardEq_iff.mp heq
      simp [replay, heq']
    · rename_i heq
      split at hf
      · exact absurd hf (by simp)
      · exact hloop _ ms hf

/-- Soundness of the connecting-sequence search: a successful result is a
genuine sequence of alternating legal moves from `b0` to `b1`. -/
theorem find_sound {b0 b1 : Board} {p : Player} {ms : List Nat}
    (h : _find_connecting_action_sequence b0 b1 p = (true, ms)) :
    replay b0 p ms = some b1 :=
  (find_sound_aux (emptyCount b0 + 1) b0 b1 p (by omega)).1 ms h

theorem find_refl (b : Board) (q : Player) :
    _find_connecting_action_sequence b b q = (true, []) := by
  unfold _find_connecting_action_sequence
  rw [boardEq_iff.mpr rfl]

/-- The search fails immediately on a pair of boards with a cell that is
non-empty in the start board but holds a different value in the target. -/
theorem find_fails_of_cell {X B1 : Board} {q : Player} {i : Fin ROWS} {j : Fin COLS}
    (hX : X i j ≠ Piece.empty) (hne : B1 i j ≠ X i j) :
    _find_connecting_action_sequence X B1 q = (false, []) := by
  have hBX : boardEq B1 X = false := by
    rcases h : boardEq B1 X with _ | _
    · rfl
    · exact absurd (congrFun (congrFun (boardEq_iff.mp h) i) j) hne
  have hpred : _is_possible_predecessor X B1 = false := by
    rcases hb : _is_possible_predecessor X B1 with _ | _
    · rfl
    · exact absurd ((possiblePred_iff.mp hb).2 i j hX) hne
  unfold _find_connecting_action_sequence
  rw [hBX, hpred]

theorem findLoop_first_success {b0 b1 : Board} {p : Player} {m1 : Nat} {ms : List Nat}
    (hsucc : ∃ c1, apply_player_action b0 m1 p = some c1 ∧
      _find_connecting_action_sequence c1 b1 p.other = (true, ms)) :
    ∀ l : List Nat, m1 ∈ l →
    (∀ m ∈ l, m ≠ m1 → ∃ c, apply_player_action b0 m p = some c ∧
      _find_connecting_action_sequence c b1 p.other = (false, [])) →
    findLoop b0 b1 p l = (true, m1 :: ms) := by
  intro l
  induction l with
  | nil =>
    intro hmem
    exact absurd hmem (by simp)
  | cons hd tl ih =>
    intro hmem hfail
    by_cases hhd : hd = m1
    · subst hhd
      rcases hsucc with ⟨c1, hap, hfind⟩
      unfold findLoop
      split
      · rename_i heq
        rw [hap] at heq
        cases heq
      · rename_i child heq
        rw [hap] at heq
        injection heq with heq
        subst heq
        split
        · rename_i moves hfind2
          rw [hfind] at hfind2
          cases hfind2
          rfl
        · rename_i snd hfind2
          rw [hfind] at hfind2
          cases hfind2
    · have hm1tl : m1 ∈ tl := by
        rcases List.mem_cons.mp hmem with h | h
        · exact absurd h.symm hhd
        · exact h
      rcases hfail hd (List.mem_cons_self _ _) hhd with ⟨c, hap, hfind⟩
      have hstep : findLoop b0 b1 p (hd :: tl) = findLoop b0 b1 p tl := by
        conv_lhs => unfold findLoop
        split
        · rfl
        · rename_i child heq
          rw [hap] at heq
          injection heq with heq
          subst heq
          split
          · rename_i moves hfind2
            rw [hfind] at hfind2
            cases hfind2
          · rfl
      rw [hstep]
      exact ih hm1tl (fun m hm hne => hfail m (List.mem_cons_of_mem _ hm) hne)

theorem apply_col_eq {b b' : Board} {a : Nat} {p : Player}
    (h : apply_player_action b a p = some b') {j : Fin COLS} (hj : (j : Nat) ≠ a) :
    ∀ i, b' i j = b i j := by
  obtain ⟨hc, r, -, -, -, hform⟩ := apply_player_action_eq_some h
  intro i
  rw [hform]
  have : ¬(i = r ∧ j = ⟨a, hc⟩) := by
    rintro ⟨-, rfl⟩
    exact hj rfl
  simp [this]

theorem lowest_empty_eq {b b' : Board} {c c' : Fin COLS} {r r' : Fin ROWS}
    (hcol : ∀ i, b i c = b' i c')
    (he : b r c = Piece.empty)
    (hm : ∀ i : Fin ROWS, (i : Nat) < (r : Nat) → b i c ≠ Piece.empty)
    (he' : b' r' c' = Piece.empty)
    (hm' : ∀ i : Fin ROWS, (i : Nat) < (r' : Nat) → b' i c' ≠ Piece.empty) :
    r = r' := by
  rcases lt_trichotomy (r : Nat) (r' : Nat) with hlt | heq | hgt
  · exact absurd ((hcol r).symm.trans he) (hm' r hlt)
  · exact Fin.ext heq
  · exact absurd ((hcol r').trans he') (hm r' hgt)

/-- Completeness of the connecting-sequence search on a two-move
continuation: the depth-first search finds exactly `[m1, m2]`. -/
theorem find_two_moves {B0 C1b B1 : Board} {p : Player} {m1 m2 : Nat}
    (hA : apply_player_action B0 m1 p = some C1b)
    (hB : apply_player_action C1b m2 p.other = some B1) :
    _find_connecting_action_sequence B0 B1 p = (true, [m1, m2]) := by
  obtain ⟨hc1, r1, hleg1, he1, hlow1, hf1⟩ := apply_player_action_eq_some hA
  obtain ⟨hc2, r2, hleg2, he2, hlow2, hf2⟩ := apply_player_action_eq_some hB
  have hcntA := emptyCount_apply hA
  have hcntB := emptyCount_apply hB
  have hC1new : C1b r1 ⟨m1, hc1⟩ = p.piece := by rw [hf1]; simp
  have hC1old : ∀ (i : Fin ROWS) (j : Fin COLS), ¬(i = r1 ∧ j = ⟨m1, hc1⟩) →
      C1b i j = B0 i j := by
    intro i j hij
    rw [hf1]
    simp [hij]
  have hB1new : B1 r2 ⟨m2, hc2⟩ = p.other.piece := by rw [hf2]; simp
  have hB1old : ∀ (i : Fin ROWS) (j : Fin COLS), ¬(i = r2 ∧ j = ⟨m2, hc2⟩) →
      B1 i j = C1b i j := by
    intro i j hij
    rw [hf2]
    simp [hij]
  -- the inner search, from the board after the first move
  have hinner : _find_connecting_action_sequence C1b B1 p.other = (true, [m2]) := by
    have hne : boardEq B1 C1b = false := by
      rcases h : boardEq B1 C1b with _ | _
      · rfl
      · have := congrArg emptyCount (boardEq_iff.mp h)
        omega
    have hpred : _is_possible_predecessor C1b B1 = true := possiblePred_of_apply hB
    have hloop : findLoop C1b B1 p.other (legalMovesN C1b) = (true, [m2]) := by
      apply findLoop_first_success
      · exact ⟨B1, hB, find_refl B1 p.other.other⟩
      · exact hleg2
      · intro m' hm'leg hm'ne
        rcases apply_player_action_isSome (p := p.other) hm'leg with ⟨Cm, hCm⟩
        obtain ⟨hc', r', -, he', hlow', hf'⟩ := apply_player_action_eq_some hCm
        refine ⟨Cm, hCm, ?_⟩
        have hCmcell : Cm r' ⟨m', hc'⟩ = p.other.piece := by rw [hf']; simp
        have hB1cell : B1 r' ⟨m', hc'⟩ = Piece.empty := by
          have hj2 : ¬(r' = r2 ∧ (⟨m', hc'⟩ : Fin COLS) = ⟨m2, hc2⟩) := by
            rintro ⟨-, hj⟩
            exact hm'ne (congrArg Fin.val hj)
          rw [hB1old r' ⟨m', hc'⟩ hj2]
          exact he'
        apply find_fails_of_cell (i := r') (j := ⟨m', hc'⟩)
        · rw [hCmcell]; exact Player.piece_ne_empty _
        · rw [hCmcell, hB1cell]
          exact fun hcon => Player.piece_ne_empty _ hcon.symm
    unfold _find_connecting_action_sequence
    rw [hne, hpred]
    exact hloop
  -- the outer search
  have hne0 : boardEq B1 B0 = false := by
    rcases h : boardEq B1 B0 with _ | _
    · rfl
    · have := congrArg emptyCount (boardEq_iff.mp h)
      omega
  have hpred0 : _is_possible_predecessor B0 B1 = true :=
    possiblePred_trans (possiblePred_of_apply hA) (possiblePred_of_apply hB)
  have hloop0 : findLoop B0 B1 p (legalMovesN B0) = (true, [m1, m2]) := by
    apply findLoop_first_success
    · exact ⟨C1b, hA, hinner⟩
    · exact hleg1
    · intro m hmleg hmne
      rcases apply_player_action_isSome (p := p) hmleg with ⟨Cm, hCm⟩
      obtain ⟨hc', r', -, he', hlow', hf'⟩ := apply_player_action_eq_some hCm
      refine ⟨Cm, hCm, ?_⟩
      have hCmcell : Cm r' ⟨m, hc'⟩ = p.piece := by rw [hf']; simp
      by_cases hm2 : m = m2
      · -- the move tried is the second move's column: the cell gets the
        -- wrong player's piece in B1
        subst hm2
        have hcol : ∀ i, C1b i ⟨m, hc2⟩ = B0 i ⟨m, hc'⟩ := by
          intro i
          have : ((⟨m, hc2⟩ : Fin COLS) : Nat) ≠ m1 := fun hcon => hmne hcon
          have hcc : (⟨m, hc2⟩ : Fin COLS) = ⟨m, hc'⟩ := rfl
          rw [← hcc]
          exact apply_col_eq hA this i
        have hrr : r2 = r' :=
          lowest_empty_eq hcol he2 hlow2 he' hlow'
        have hB1cell : B1 r' ⟨m, hc'⟩ = p.other.piece := by
          have hcc : (⟨m, hc'⟩ : Fin COLS) = ⟨m, hc2⟩ := rfl
          rw [hcc, ← hrr]
          exact hB1new
        apply find_fails_of_cell (i := r') (j := ⟨m, hc'⟩)
        · rw [hCmcell]; exact Player.piece_ne_empty _
        · rw [hCmcell, hB1cell]
          exact Player.other_piece_ne p
      · -- a column touched by neither move: the cell is empty in B1
        have hB1cell : B1 r' ⟨m, hc'⟩ = Piece.empty := by
          have hj2 : ¬(r' = r2 ∧ (⟨m, hc'⟩ : Fin COLS) = ⟨m2, hc2⟩) := by
            rintro ⟨-, hj⟩
            exact hm2 (congrArg Fin.val hj)
          have hj1 : ¬(r' = r1 ∧ (⟨m, hc'⟩ : Fin COLS) = ⟨m1, hc1⟩) := by
            rintro ⟨-, hj⟩
            exact hmne (congrArg Fin.val hj)
          rw [hB1old r' ⟨m, hc'⟩ hj2, hC1old r' ⟨m, hc'⟩ hj1]
          exact he'
        apply find_fails_of_cell (i := r') (j := ⟨m, hc'⟩)
        · rw [hCmcell]; exact Player.piece_ne_empty _
        · rw [hCmcell, hB1cell]
          exact fun hcon => Player.piece_ne_empty _ hcon.symm
  unfold _find_connecting_action_sequence
  rw [hne0, hpred0]
  exact hloop0

/-! ### The search tree (searchtree.py)

A `SearchTree` node owns its `children` (a dict from action to node) and
holds `stats`, the player to move, and the lazily-set `is_end_state` flag.
The `root_board` is shared by every node of a tree and is therefore kept
once, in a `Handle`, rather than per node; the non-owning `parent`
back-reference is represented by the path from the root, so promoting a
node to root (`make_root`) is modelled by returning that node as the new
top-level tree, which is exactly what clearing its parent link leaves
reachable. -/

inductive STree (σ : Type) : Type where
  | mk : σ → List (Nat × STree σ) → Player → Bool → STree σ

def STree.stats {σ : Type} : STree σ → σ
  | .mk s _ _ _ => s

def STree.children {σ : Type} : STree σ → List (Nat × STree σ)
  | .mk _ c _ _ => c

def STree.player {σ : Type} : STree σ → Player
  | .mk _ _ p _ => p

def STree.isEnd {σ : Type} : STree σ → Bool
  | .mk _ _ _ e => e

/-- A tree together with the shared root board (`root_board` in the source). -/
structure Handle (σ : Type) : Type where
  board : Board
  tree : STree σ

/-- Dictionary lookup in the `children` mapping. -/
def lookupA {σ : Type} : List (Nat × STree σ) → Nat → Option (STree σ)
  | [], _ => none
  | (a, c) :: rest, m => if a = m then some c else lookupA rest m

/-- The node reached from `t` by following the given child links. -/
def getNode {σ : Type} : STree σ → List Nat → Option (STree σ)
  | t, [] => some t
  | t, m :: ms =>
    match lookupA t.children m with
    | some c => getNode c ms
    | none => none

/-- The `for move in moves: search_tree = search_tree.expand_child(move)`
walk of `_move_root`: follow existing children, creating fresh nodes
(empty stats `e0`, no children, flipped player) where absent, and return
the final node. -/
def descendExpand {σ : Type} (e0 : σ) : STree σ → List Nat → STree σ
  | t, [] => t
  | t, m :: ms =>
    match lookupA t.children m with
    | some c => descendExpand e0 c ms
    | none => descendExpand e0 (STree.mk e0 [] t.player.other false) ms

/-- `_move_root` (mcts.py): find the connecting action sequence, raise
`ValueError` (here `Except.error`) if there is none, otherwise expand
along it and `make_root` the final node (overwrite the shared board,
clear the parent link). -/
def _move_root {σ : Type} (e0 : σ) (search_tree : Handle σ) (board : Board) :
    Except String (Handle σ) :=
  match _find_connecting_action_sequence search_tree.board board search_tree.tree.player with
  | (true, moves) => Except.ok ⟨board, descendExpand e0 search_tree.tree moves⟩
  | (false, _) =>
    Except.error "incompatible game states: root board of SearchTree can not be a predecessor of given board"

theorem descendExpand_getNode {σ : Type} (e0 : σ) :
    ∀ (ms : List Nat) (t n : STree σ), getNode t ms = some n →
      descendExpand e0 t ms = n := by
  intro ms
  induction ms with
  | nil =>
    intro t n hn
    unfold getNode at hn
    cases hn
    rfl
  | cons m rest ih =>
    intro t n hn
    unfold getNode at hn
    unfold descendExpand
    rcases hl : lookupA t.children m with _ | c
    · rw [hl] at hn
      exact absurd hn (by simp)
    · rw [hl] at hn
      exact ih c n hn

/-- Claim C1: root relocation.  Given a tree handle rooted at `B0` and a
board `B1` obtained from `B0` by two legal moves `[m1, m2]` played
alternately (the tree's root player first), `_find_connecting_action_sequence`
finds exactly `[m1, m2]`; `_move_root` promotes the node reached along
that path to root, so the resulting handle's board is `B1` and its tree is
`descendExpand` along `[m1, m2]` — in particular, when that path already
exists in the tree, the promoted node is exactly the existing node with
its stats and children (the parent link disappears because the node
becomes the top-level tree).  Conversely `_move_root` never silently
recovers: whenever it returns `ok`, the new board is reachable from `B0`
by a sequence of alternating legal moves, so for an unreachable board
(e.g. one with a piece removed or overwritten) it returns the
incompatibility error. -/
theorem C1_move_root {σ : Type} (e0 : σ) (t : STree σ) (B0 C1b B1 : Board) (m1 m2 : Nat)
    (hA : apply_player_action B0 m1 t.player = some C1b)
    (hB : apply_player_action C1b m2 t.player.other = some B1) :
    _find_connecting_action_sequence B0 B1 t.player = (true, [m1, m2]) ∧
    _move_root e0 ⟨B0, t⟩ B1 = Except.ok ⟨B1, descendExpand e0 t [m1, m2]⟩ ∧
    (∀ n : STree σ, getNode t [m1, m2] = some n →
      _move_root e0 ⟨B0, t⟩ B1 = Except.ok ⟨B1, n⟩) ∧
    (∀ (B' : Board) (r : Handle σ), _move_root e0 ⟨B0, t⟩ B' = Except.ok r →
      r.board = B' ∧ ∃ ms, replay B0 t.player ms = some B') := by
  have hfind := find_two_moves hA hB
  refine ⟨hfind, ?_, ?_, ?_⟩
  · unfold _move_root
    dsimp only
    rw [hfind]
  · intro n hn
    unfold _move_root
    dsimp only
    rw [hfind]
    show (Except.ok ⟨B1, descendExpand e0 t [m1, m2]⟩ : Except String (Handle σ)) =
      Except.ok ⟨B1, n⟩
    rw [descendExpand_getNode e0 [m1, m2] t n hn]
  · intro B' r hok
    unfold _move_root at hok
    dsimp only at hok
    rcases hres : _find_connecting_action_sequence B0 B' t.player with ⟨found, moves⟩
    rw [hres] at hok
    cases found
    · exact absurd hok (by simp)
    · cases hok
      exact ⟨rfl, moves, find_sound hres⟩

/-- Concrete boards for the C1 witness: the empty board after the moves
`[0, 1]` (player 1 in column 0, then player 2 in column 1). -/
def wBoard1 : Board :=
  fun i j => if (i : Nat) = 0 ∧ (j : Nat) = 0 then Piece.pl1 else Piece.empty

def wBoard2 : Board :=
  fun i j =>
    if (i : Nat) = 0 ∧ (j : Nat) = 0 then Piece.pl1
    else if (i : Nat) = 0 ∧ (j : Nat) = 1 then Piece.pl2
    else Piece.empty

/-- Witness for C1: relocating a fresh tree from the empty board to the
board after the two moves `[0, 1]`. -/
theorem C1_move_root_witness :
    _find_connecting_action_sequence initialize_game_state wBoard2 Player.one =
      (true, [0, 1]) ∧
    _move_root 0 ⟨initialize_game_state, STree.mk 0 [] Player.one false⟩ wBoard2 =
      Except.ok ⟨wBoard2, descendExpand 0 (STree.mk 0 [] Player.one false) [0, 1]⟩ ∧
    (∀ n : STree Nat, getNode (STree.mk 0 [] Player.one false) [0, 1] = some n →
      _move_root 0 ⟨initialize_game_state, STree.mk 0 [] Player.one false⟩ wBoard2 =
        Except.ok ⟨wBoard2, n⟩) ∧
    (∀ (B' : Board) (r : Handle Nat),
      _move_root 0 ⟨initialize_game_state, STree.mk 0 [] Player.one false⟩ B' =
        Except.ok r →
      r.board = B' ∧ ∃ ms, replay initialize_game_state Player.one ms = some B') :=
  C1_move_root 0 (STree.mk 0 [] Player.one false) initialize_game_state wBoard1 wBoard2
    0 1 (apply_eq_some_of_boardEq (by decide)) (apply_eq_some_of_boardEq (by decide))

/-! ### Tree merge (searchtree.py, `merge_trees`) -/

/-- The key list of a `children` dict. -/
def childKeys {σ : Type} (ch : List (Nat × STree σ)) : List Nat := ch.map Prod.fst

/-- Python dict assignment `d[k] = v`: replace the value at an existing
key (keeping its position), else append. -/
def insertChild {σ : Type} : List (Nat × STree σ) → Nat → STree σ → List (Nat × STree σ)
  | [], m, c => [(m, c)]
  | (a, c0) :: rest, m, c =>
    if a = m then (m, c) :: rest else (a, c0) :: insertChild rest m c

/-- `new_child = merged_tree.expand_child(move); new_child.stats = {**child.stats}`:
if the key is present, the existing child keeps its children and gets the
copied stats; otherwise a fresh node (flipped player, no children) with
the copied stats is appended. -/
def copyChildStats {σ : Type} (ch : List (Nat × STree σ)) (pl : Player) (m : Nat)
    (stats : σ) : List (Nat × STree σ) :=
  match lookupA ch m with
  | some (STree.mk _ c p e) => insertChild ch m (STree.mk stats c p e)
  | none => ch ++ [(m, STree.mk stats [] pl.other false)]

/-- `common_children = set(c1) & set(c2)` of `merge_trees`. -/
def commonKeys {σ : Type} (c1 c2 : List (Nat × STree σ)) : List Nat :=
  (childKeys c1).filter (fun m => (childKeys c2).contains m)

/-- The first loop of `merge_trees`: iterate
`list(c1.items()) + list(c2.items())`, skip common moves, and copy each
remaining (unique) child's stats into a freshly expanded child of the
merged tree. -/
def mergeUniques {σ : Type} (c1 c2 : List (Nat × STree σ)) (p1 : Player) :
    List (Nat × STree σ) :=
  ((c1 ++ c2).filter (fun mc => !((commonKeys c1 c2).contains mc.1))).foldl
    (fun ch mc => copyChildStats ch p1 mc.1 mc.2.stats) []

mutual

/-- `SearchTree.merge_trees`, recursive part (the board check happens once
at the `Handle` level in `merge_trees` below: all nodes of a tree share
the one root board, so the re-check the source performs in recursive calls
always passes).  Children present in exactly one tree are processed by the
first loop (`expand_child` + stats copy), common children are merged
recursively and assigned into the children dict. -/
def merge_rec {σ : Type} (f : σ → σ → σ) : STree σ → STree σ → Except String (STree σ)
  | STree.mk s1 c1 p1 _, STree.mk s2 c2 p2 _ =>
    if p1 = p2 then
      match mergeLoop f c2 c1 (mergeUniques c1 c2 p1) with
      | Except.ok ch => Except.ok (STree.mk (f s1 s2) ch p1 false)
      | Except.error e => Except.error e
    else Except.error "SearchTrees can not be merged, their players mismatch"

/-- The `for move in common_children` loop: walk the first tree's children,
recursively merging those whose key also appears in the second tree's
children and assigning the result into the accumulated dict. -/
def mergeLoop {σ : Type} (f : σ → σ → σ) (c2 : List (Nat × STree σ)) :
    List (Nat × STree σ) → List (Nat × STree σ) → Except String (List (Nat × STree σ))
  | [], acc => Except.ok acc
  | (m, ch1) :: rest, acc =>
    match lookupA c2 m with
    | none => mergeLoop f c2 rest acc
    | some ch2 =>
      match merge_rec f ch1 ch2 with
      | Except.ok merged => mergeLoop f c2 rest (insertChild acc m merged)
      | Except.error e => Except.error e

end

/-- `SearchTree.merge_trees` at the `Handle` level: boards must agree
cell-wise, then the root players are compared and the trees merged. -/
def merge_trees {σ : Type} (f : σ → σ → σ) (t1 t2 : Handle σ) :
    Except String (Handle σ) :=
  match boardEq t1.board t2.board with
  | false => Except.error "SearchTrees can not be merged, their boards mismatch"
  | true =>
    match merge_rec f t1.tree t2.tree with
    | Except.ok t => Except.ok ⟨t1.board, t⟩
    | Except.error e => Except.error e

@[simp] theorem STree.stats_mk {σ : Type} (s : σ) (c : List (Nat × STree σ))
    (p : Player) (e : Bool) : (STree.mk s c p e).stats = s := rfl

@[simp] theorem STree.children_mk {σ : Type} (s : σ) (c : List (Nat × STree σ))
    (p : Player) (e : Bool) : (STree.mk s c p e).children = c := rfl

@[simp] theorem STree.player_mk {σ : Type} (s : σ) (c : List (Nat × STree σ))
    (p : Player) (e : Bool) : (STree.mk s c p e).player = p := rfl

@[simp] theorem STree.isEnd_mk {σ : Type} (s : σ) (c : List (Nat × STree σ))
    (p : Player) (e : Bool) : (STree.mk s c p e).isEnd = e := rfl

theorem lookupA_mem {σ : Type} :
    ∀ {ch : List (Nat × STree σ)} {m : Nat} {c : STree σ},
      lookupA ch m = some c → (m, c) ∈ ch := by
  intro ch
  induction ch with
  | nil => intro m c h; cases h
  | cons hd rest ih =>
    intro m c h
    rcases hd with ⟨a, c0⟩
    unfold lookupA at h
    by_cases ha : a = m
    · rw [if_pos ha] at h
      cases h
      subst ha
      exact List.mem_cons_self _ _
    · rw [if_neg ha] at h
      exact List.mem_cons_of_mem _ (ih h)

theorem lookupA_none_iff {σ : Type} :
    ∀ {ch : List (Nat × STree σ)} {m : Nat},
      lookupA ch m = none ↔ m ∉ childKeys ch := by
  intro ch
  induction ch with
  | nil => intro m; simp [lookupA, childKeys]
  | cons hd rest ih =>
    intro m
    rcases hd with ⟨a, c0⟩
    unfold lookupA
    by_cases ha : a = m
    · subst ha
      simp [childKeys]
    · rw [if_neg ha, ih]
      simp only [childKeys, List.map_cons, List.mem_cons, not_or]
      constructor
      · intro h
        exact ⟨fun hcon => ha hcon.symm, h⟩
      · intro h
        exact h.2

theorem mem_childKeys_of_lookupA {σ : Type} {ch : List (Nat × STree σ)} {m : Nat}
    {c : STree σ} (h : lookupA ch m = some c) : m ∈ childKeys ch :=
  List.mem_map.mpr ⟨(m, c), lookupA_mem h, rfl⟩

theorem lookupA_isSome_iff {σ : Type} {ch : List (Nat × STree σ)} {m : Nat} :
    (lookupA ch m).isSome = true ↔ m ∈ childKeys ch := by
  rcases h : lookupA ch m with _ | c
  · constructor
    · intro hcon
      exact absurd hcon (by simp)
    · intro hmem
      exact absurd hmem (lookupA_none_iff.mp h)
  · simp only [Option.isSome_some, true_iff]
    exact mem_childKeys_of_lookupA h

theorem lookupA_of_mem_nodup {σ : Type} :
    ∀ {ch : List (Nat × STree σ)} {m : Nat} {c : STree σ},
      (childKeys ch).Nodup → (m, c) ∈ ch → lookupA ch m = some c := by
  intro ch
  induction ch with
  | nil => intro m c _ h; cases h
  | cons hd rest ih =>
    intro m c hnd hmem
    rcases hd with ⟨a, c0⟩
    rcases List.nodup_cons.mp hnd with ⟨hna, hndr⟩
    rcases List.mem_cons.mp hmem with h | h
    · cases h
      simp [lookupA]
    · unfold lookupA
      have ham : ¬ (a = m) := by
        rintro rfl
        exact hna (List.mem_map.mpr ⟨(a, c), h, rfl⟩)
      rw [if_neg ham]
      exact ih hndr h

theorem lookupA_append {σ : Type} :
    ∀ (l1 l2 : List (Nat × STree σ)) (m : Nat),
      lookupA (l1 ++ l2) m =
        match lookupA l1 m with
        | some v => some v
        | none => lookupA l2 m := by
  intro l1
  induction l1 with
  | nil => intro l2 m; simp [lookupA]
  | cons hd rest ih =>
    intro l2 m
    rcases hd with ⟨a, c0⟩
    by_cases ha : a = m <;> simp [lookupA, ha, ih]

theorem lookupA_insertChild_self {σ : Type} :
    ∀ (ch : List (Nat × STree σ)) (m : Nat) (v : STree σ),
      lookupA (insertChild ch m v) m = some v := by
  intro ch
  induction ch with
  | nil => intro m v; simp [insertChild, lookupA]
  | cons hd rest ih =>
    intro m v
    rcases hd with ⟨a, c0⟩
    unfold insertChild
    by_cases ha : a = m
    · rw [if_pos ha]
      simp [lookupA]
    · rw [if_neg ha]
      simp [lookupA, ha, ih]

theorem lookupA_insertChild_ne {σ : Type} :
    ∀ (ch : List (Nat × STree σ)) (m m' : Nat) (v : STree σ), m' ≠ m →
      lookupA (insertChild ch m v) m' = lookupA ch m' := by
  intro ch
  induction ch with
  | nil =>
    intro m m' v hne
    simp [insertChild, lookupA, Ne.symm hne]
  | cons hd rest ih =>
    intro m m' v hne
    rcases hd with ⟨a, c0⟩
    unfold insertChild
    by_cases ha : a = m
    · subst ha
      rw [if_pos rfl]
      simp [lookupA, Ne.symm hne]
    · rw [if_neg ha]
      by_cases ha' : a = m' <;> simp [lookupA, ha', ih _ _ _ hne]

theorem lookupA_map_copy {σ : Type} (g : STree σ → STree σ) :
    ∀ (l : List (Nat × STree σ)) (m : Nat),
      lookupA (l.map (fun mc => (mc.1, g mc.2))) m = (lookupA l m).map g := by
  intro l
  induction l with
  | nil => intro m; simp [lookupA]
  | cons hd rest ih =>
    intro m
    rcases hd with ⟨a, c0⟩
    by_cases ha : a = m <;> simp [lookupA, ha, ih]

theorem lookupA_filter_key {σ : Type} (q : Nat → Bool) :
    ∀ (l : List (Nat × STree σ)) (m : Nat),
      lookupA (l.filter (fun mc => q mc.1)) m =
        if q m then lookupA l m else none := by
  intro l
  induction l with
  | nil => intro m; simp [lookupA]
  | cons hd rest ih =>
    intro m
    rcases hd with ⟨a, c0⟩
    by_cases ha : a = m
    · subst ha
      by_cases hq : q a = true <;> simp [lookupA, hq, List.filter_cons, ih]
    · by_cases hq : q a = true <;> simp [lookupA, hq, ha, List.filter_cons, ih]

theorem childKeys_filter {σ : Type} (q : Nat → Bool) (l : List (Nat × STree σ)) :
    childKeys (l.filter (fun mc => q mc.1)) = (childKeys l).filter q := by
  induction l with
  | nil => rfl
  | cons hd rest ih =>
    rcases hd with ⟨a, c0⟩
    by_cases hq : q a = true <;> simp [childKeys, List.filter_cons, hq] <;>
      simpa [childKeys] using ih

theorem childKeys_append {σ : Type} (l1 l2 : List (Nat × STree σ)) :
    childKeys (l1 ++ l2) = childKeys l1 ++ childKeys l2 := by
  simp [childKeys]

/-- Well-formedness shared by every tree the public operations build:
children keys are `Nodup` (a Python dict) and players alternate. -/
inductive WFT {σ : Type} : STree σ → Prop where
  | mk {s : σ} {ch : List (Nat × STree σ)} {pl : Player} {e : Bool} :
      (childKeys ch).Nodup →
      (∀ a c, (a, c) ∈ ch → c.player = pl.other) →
      (∀ a c, (a, c) ∈ ch → WFT c) →
      WFT (STree.mk s ch pl e)

theorem WFT.nodup {σ : Type} {s : σ} {ch : List (Nat × STree σ)} {pl : Player}
    {e : Bool} (h : WFT (STree.mk s ch pl e)) : (childKeys ch).Nodup := by
  cases h
  assumption

theorem WFT.childPlayer {σ : Type} {s : σ} {ch : List (Nat × STree σ)} {pl : Player}
    {e : Bool} (h : WFT (STree.mk s ch pl e)) :
    ∀ a c, (a, c) ∈ ch → c.player = pl.other := by
  cases h
  assumption

theorem WFT.childWFT {σ : Type} {s : σ} {ch : List (Nat × STree σ)} {pl : Player}
    {e : Bool} (h : WFT (STree.mk s ch pl e)) :
    ∀ a c, (a, c) ∈ ch → WFT c := by
  cases h
  assumption

theorem sizeOf_child_lt {σ : Type} {s : σ} {ch : List (Nat × STree σ)} {pl : Player}
    {e : Bool} {a : Nat} {c : STree σ} (h : (a, c) ∈ ch) :
    sizeOf c < sizeOf (STree.mk s ch pl e) := by
  have h1 := List.sizeOf_lt_of_mem h
  have h2 : sizeOf (a, c) = 1 + sizeOf a + sizeOf c := rfl
  simp only [STree.mk.sizeOf_spec]
  omega

theorem natContains_iff {l : List Nat} {a : Nat} : l.contains a = true ↔ a ∈ l := by
  simp

theorem childKeys_cons {σ : Type} (a : Nat) (c : STree σ)
    (rest : List (Nat × STree σ)) :
    childKeys ((a, c) :: rest) = a :: childKeys rest := rfl

theorem copyChildStats_none {σ : Type} {acc : List (Nat × STree σ)} {pl : Player}
    {m : Nat} {st : σ} (h : lookupA acc m = none) :
    copyChildStats acc pl m st = acc ++ [(m, STree.mk st [] pl.other false)] := by
  unfold copyChildStats
  rw [h]

theorem copy_foldl_eq {σ : Type} (pl : Player) :
    ∀ (l acc : List (Nat × STree σ)),
      (∀ m ∈ childKeys l, lookupA acc m = none) →
      (childKeys l).Nodup →
      l.foldl (fun ch mc => copyChildStats ch pl mc.1 mc.2.stats) acc =
        acc ++ l.map (fun mc => (mc.1, STree.mk mc.2.stats [] pl.other false)) := by
  intro l
  induction l with
  | nil =>
    intro acc _ _
    simp
  | cons hd rest ih =>
    intro acc hnone hnd
    rcases hd with ⟨m, c⟩
    rw [childKeys_cons] at hnd
    have hndc := List.nodup_cons.mp hnd
    simp only [List.foldl_cons]
    have hm : lookupA acc m = none := hnone m (by rw [childKeys_cons]; simp)
    rw [copyChildStats_none hm, ih]
    · simp [childKeys]
    · intro m' hm'
      have hne : m' ≠ m := by
        rintro rfl
        exact hndc.1 hm'
      have hm'mem : m' ∈ childKeys ((m, c) :: rest) := by
        rw [childKeys_cons]
        exact List.mem_cons_of_mem m hm'
      rw [lookupA_append, hnone m' hm'mem]
      simp [lookupA, Ne.symm hne]
    · exact hndc.2

theorem lookupA_mergeUniques {σ : Type} {c1 c2 : List (Nat × STree σ)} (p1 : Player)
    (hnd1 : (childKeys c1).Nodup) (hnd2 : (childKeys c2).Nodup) (m : Nat) :
    lookupA (mergeUniques c1 c2 p1) m =
      if (commonKeys c1 c2).contains m then none
      else (lookupA (c1 ++ c2) m).map
        (fun c => STree.mk c.stats [] p1.other false) := by
  have hndu : (childKeys
      ((c1 ++ c2).filter (fun mc => !((commonKeys c1 c2).contains mc.1)))).Nodup := by
    rw [childKeys_filter (fun m => !((commonKeys c1 c2).contains m)) (c1 ++ c2),
      childKeys_append, List.filter_append]
    apply List.Nodup.append
    · exact hnd1.filter _
    · exact hnd2.filter _
    · intro x hx1 hx2
      rcases List.mem_filter.mp hx1 with ⟨hm1, hq⟩
      rcases List.mem_filter.mp hx2 with ⟨hm2, -⟩
      have hcomm : (commonKeys c1 c2).contains x = true := by
        rw [natContains_iff]
        exact List.mem_filter.mpr ⟨hm1, natContains_iff.mpr hm2⟩
      rw [hcomm] at hq
      exact absurd hq (by simp)
  unfold mergeUniques
  rw [copy_foldl_eq p1 _ [] (fun m' _ => rfl) hndu, List.nil_append,
    lookupA_map_copy (fun c => STree.mk c.stats [] p1.other false),
    lookupA_filter_key (fun m => !((commonKeys c1 c2).contains m))]
  by_cases hm : m ∈ commonKeys c1 c2 <;> simp [hm]

theorem mem_commonKeys_iff {σ : Type} {c1 c2 : List (Nat × STree σ)} {m : Nat} :
    m ∈ commonKeys c1 c2 ↔ (m ∈ childKeys c1 ∧ m ∈ childKeys c2) := by
  unfold commonKeys
  rw [List.mem_filter]
  constructor
  · rintro ⟨h1, h2⟩
    exact ⟨h1, natContains_iff.mp h2⟩
  · rintro ⟨h1, h2⟩
    exact ⟨h1, natContains_iff.mpr h2⟩

theorem mergeLoop_ok {σ : Type} (f : σ → σ → σ) (c2 : List (Nat × STree σ)) :
    ∀ l : List (Nat × STree σ),
      (∀ m ch1, (m, ch1) ∈ l → ∀ ch2, lookupA c2 m = some ch2 →
        ∃ mc, merge_rec f ch1 ch2 = Except.ok mc) →
      ∀ acc, ∃ res, mergeLoop f c2 l acc = Except.ok res := by
  intro l
  induction l with
  | nil =>
    intro _ acc
    refine ⟨acc, ?_⟩
    unfold mergeLoop
    rfl
  | cons hd rest ih =>
    intro hsucc acc
    rcases hd with ⟨m, ch1⟩
    rcases hc2 : lookupA c2 m with _ | ch2
    · have hstep : mergeLoop f c2 ((m, ch1) :: rest) acc = mergeLoop f c2 rest acc := by
        conv_lhs => unfold mergeLoop
        rw [hc2]
      rw [hstep]
      exact ih (fun m' ch' hm' ch2' h2 =>
        hsucc m' ch' (List.mem_cons_of_mem _ hm') ch2' h2) acc
    · rcases hsucc m ch1 (List.mem_cons_self _ _) ch2 hc2 with ⟨mc, hmc⟩
      have hstep : mergeLoop f c2 ((m, ch1) :: rest) acc =
          mergeLoop f c2 rest (insertChild acc m mc) := by
        conv_lhs => unfold mergeLoop
        simp only [hc2, hmc]
      rw [hstep]
      exact ih (fun m' ch' hm' ch2' h2 =>
        hsucc m' ch' (List.mem_cons_of_mem _ hm') ch2' h2) _

theorem mergeLoop_lookup {σ : Type} (f : σ → σ → σ) (c2 : List (Nat × STree σ)) :
    ∀ (l acc res : List (Nat × STree σ)),
      (childKeys l).Nodup →
      mergeLoop f c2 l acc = Except.ok res →
      (∀ m ch1 ch2, lookupA l m = some ch1 → lookupA c2 m = some ch2 →
        ∃ mc, merge_rec f ch1 ch2 = Except.ok mc ∧ lookupA res m = some mc) ∧
      (∀ m, lookupA l m = none ∨ lookupA c2 m = none →
        lookupA res m = lookupA acc m) := by
  intro l
  induction l with
  | nil =>
    intro acc res _ hml
    have hacc : acc = res := by
      unfold mergeLoop at hml
      injection hml
    subst hacc
    exact ⟨fun m ch1 ch2 h1 _ => absurd h1 (by simp [lookupA]),
      fun m _ => rfl⟩
  | cons hd rest ih =>
    intro acc res hnd hml
    rcases hd with ⟨m0, ch0⟩
    rw [childKeys_cons] at hnd
    have hndc := List.nodup_cons.mp hnd
    rcases hc2 : lookupA c2 m0 with _ | ch2
    · have hml' : mergeLoop f c2 rest acc = Except.ok res := by
        unfold mergeLoop at hml
        rw [hc2] at hml
        exact hml
      rcases ih acc res hndc.2 hml' with ⟨ih1, ih2⟩
      constructor
      · intro m ch1 ch2' h1 h2
        by_cases hm : m0 = m
        · subst hm
          rw [hc2] at h2
          cases h2
        · have h1' : lookupA rest m = some ch1 := by
            unfold lookupA at h1
            rwa [if_neg hm] at h1
          exact ih1 m ch1 ch2' h1' h2
      · intro m hor
        by_cases hm : m0 = m
        · subst hm
          exact ih2 m0 (Or.inl (lookupA_none_iff.mpr hndc.1))
        · have hor' : lookupA rest m = none ∨ lookupA c2 m = none := by
            rcases hor with h | h
            · refine Or.inl ?_
              unfold lookupA at h
              rwa [if_neg hm] at h
            · exact Or.inr h
          exact ih2 m hor'
    · rcases hmc : merge_rec f ch0 ch2 with e | mc
      · exfalso
        unfold mergeLoop at hml
        simp only [hc2, hmc] at hml
        exact absurd hml (by simp)
      · have hml' : mergeLoop f c2 rest (insertChild acc m0 mc) = Except.ok res := by
          unfold mergeLoop at hml
          simp only [hc2, hmc] at hml
          exact hml
        rcases ih (insertChild acc m0 mc) res hndc.2 hml' with ⟨ih1, ih2⟩
        constructor
        · intro m ch1 ch2' h1 h2
          by_cases hm : m0 = m
          · subst hm
            have hch1 : ch1 = ch0 := by
              unfold lookupA at h1
              rw [if_pos rfl] at h1
              injection h1 with h1
              exact h1.symm
            subst hch1
            rw [hc2] at h2
            injection h2 with h2
            subst h2
            refine ⟨mc, hmc, ?_⟩
            rw [ih2 m0 (Or.inl (lookupA_none_iff.mpr hndc.1))]
            exact lookupA_insertChild_self acc m0 mc
          · have h1' : lookupA rest m = some ch1 := by
              unfold lookupA at h1
              rwa [if_neg hm] at h1
            exact ih1 m ch1 ch2' h1' h2
        · intro m hor
          by_cases hm : m0 = m
          · subst hm
            rcases hor with h | h
            · unfold lookupA at h
              rw [if_pos rfl] at h
              cases h
            · rw [hc2] at h
              cases h
          · have hor' : lookupA rest m = none ∨ lookupA c2 m = none := by
              rcases hor with h | h
              · refine Or.inl ?_
                unfold lookupA at h
                rwa [if_neg hm] at h
              · exact Or.inr h
            rw [ih2 m hor']
            exact lookupA_insertChild_ne acc m0 m mc (fun hcon => hm hcon.symm)

theorem merge_rec_ok {σ : Type} (f : σ → σ → σ) :
    ∀ (n : Nat) (t1 t2 : STree σ), sizeOf t1 < n →
      WFT t1 → WFT t2 → t1.player = t2.player →
      ∃ t, merge_rec f t1 t2 = Except.ok t := by
  intro n
  induction n with
  | zero => intro t1 t2 h; exact absurd h (by omega)
  | succ n ih =>
    intro t1 t2 hn hw1 hw2 hp
    rcases t1 with ⟨s1, c1, p1, e1⟩
    rcases t2 with ⟨s2, c2, p2, e2⟩
    simp only [STree.player_mk] at hp
    have hsucc : ∀ m ch1, (m, ch1) ∈ c1 → ∀ ch2, lookupA c2 m = some ch2 →
        ∃ mc, merge_rec f ch1 ch2 = Except.ok mc := by
      intro m ch1 hmem ch2 hc2
      have hm2 := lookupA_mem hc2
      apply ih ch1 ch2
      · have := @sizeOf_child_lt σ s1 c1 p1 e1 m ch1 hmem
        omega
      · exact hw1.childWFT m ch1 hmem
      · exact hw2.childWFT m ch2 hm2
      · rw [hw1.childPlayer m ch1 hmem, hw2.childPlayer m ch2 hm2, hp]
    rcases mergeLoop_ok f c2 c1 hsucc (mergeUniques c1 c2 p1) with ⟨res, hres⟩
    refine ⟨STree.mk (f s1 s2) res p1 false, ?_⟩
    unfold merge_rec
    rw [if_pos hp]
    simp only [hres]

/-- Characterisation of a successful recursive merge (one level). -/
theorem merge_rec_spec {σ : Type} (f : σ → σ → σ) {s1 s2 : σ}
    {c1 c2 : List (Nat × STree σ)} {p1 p2 : Player} {e1 e2 : Bool} {t : STree σ}
    (hnd1 : (childKeys c1).Nodup) (hnd2 : (childKeys c2).Nodup) (hp : p1 = p2)
    (hok : merge_rec f (STree.mk s1 c1 p1 e1) (STree.mk s2 c2 p2 e2) = Except.ok t) :
    t.stats = f s1 s2 ∧ t.player = p1 ∧ t.isEnd = false ∧
    (∀ m, (lookupA t.children m).isSome = true ↔
      ((lookupA c1 m).isSome = true ∨ (lookupA c2 m).isSome = true)) ∧
    (∀ m ch1 ch2, lookupA c1 m = some ch1 → lookupA c2 m = some ch2 →
      ∃ mc, merge_rec f ch1 ch2 = Except.ok mc ∧ lookupA t.children m = some mc) ∧
    (∀ m ch1, lookupA c1 m = some ch1 → lookupA c2 m = none →
      lookupA t.children m = some (STree.mk ch1.stats [] p1.other false)) ∧
    (∀ m ch2, lookupA c1 m = none → lookupA c2 m = some ch2 →
      lookupA t.children m = some (STree.mk ch2.stats [] p1.other false)) := by
  unfold merge_rec at hok
  rw [if_pos hp] at hok
  rcases hml : mergeLoop f c2 c1 (mergeUniques c1 c2 p1) with e | ch
  · simp only [hml] at hok
    exact absurd hok (by simp)
  · simp only [hml] at hok
    injection hok with hok
    subst hok
    rcases mergeLoop_lookup f c2 c1 (mergeUniques c1 c2 p1) ch hnd1 hml with ⟨hl1, hl2⟩
    refine ⟨rfl, rfl, rfl, ?_, ?_, ?_, ?_⟩
    · intro m
      simp only [STree.children_mk]
      by_cases h1 : (lookupA c1 m).isSome = true
      · rcases Option.isSome_iff_exists.mp h1 with ⟨ch1, hch1⟩
        by_cases h2 : (lookupA c2 m).isSome = true
        · rcases Option.isSome_iff_exists.mp h2 with ⟨ch2, hch2⟩
          rcases hl1 m ch1 ch2 hch1 hch2 with ⟨mc, -, hmc⟩
          simp [hmc, h1]
        · have hc2n : lookupA c2 m = none := by
            rcases hx : lookupA c2 m with _ | _
            · rfl
            · rw [hx] at h2; exact absurd rfl h2
          rw [hl2 m (Or.inr hc2n), lookupA_mergeUniques p1 hnd1 hnd2 m]
          have hnc : ¬ ((commonKeys c1 c2).contains m = true) := by
            rw [natContains_iff, mem_commonKeys_iff]
            rintro ⟨-, hmem2⟩
            exact absurd (lookupA_none_iff.mp hc2n) (by simp [hmem2])
          rw [if_neg hnc, lookupA_append, hch1]
          simp
      · have hc1n : lookupA c1 m = none := by
          rcases hx : lookupA c1 m with _ | _
          · rfl
          · rw [hx] at h1; exact absurd rfl h1
        rw [hl2 m (Or.inl hc1n), lookupA_mergeUniques p1 hnd1 hnd2 m]
        have hnc : ¬ ((commonKeys c1 c2).contains m = true) := by
          rw [natContains_iff, mem_commonKeys_iff]
          rintro ⟨hmem1, -⟩
          exact absurd (lookupA_none_iff.mp hc1n) (by simp [hmem1])
        rw [if_neg hnc, lookupA_append, hc1n]
        simp [h1]
    · intro m ch1 ch2 hch1 hch2
      simpa using hl1 m ch1 ch2 hch1 hch2
    · intro m ch1 hch1 hch2
      simp only [STree.children_mk]
      rw [hl2 m (Or.inr hch2), lookupA_mergeUniques p1 hnd1 hnd2 m]
      have hnc : ¬ ((commonKeys c1 c2).contains m = true) := by
        rw [natContains_iff, mem_commonKeys_iff]
        rintro ⟨-, hmem2⟩
        exact absurd (lookupA_none_iff.mp hch2) (by simp [hmem2])
      rw [if_neg hnc, lookupA_append, hch1]
      simp
    · intro m ch2 hch1 hch2
      simp only [STree.children_mk]
      rw [hl2 m (Or.inl hch1), lookupA_mergeUniques p1 hnd1 hnd2 m]
      have hnc : ¬ ((commonKeys c1 c2).contains m = true) := by
        rw [natContains_iff, mem_commonKeys_iff]
        rintro ⟨hmem1, -⟩
        exact absurd (lookupA_none_iff.mp hch1) (by simp [hmem1])
      rw [if_neg hnc, lookupA_append, hch1, hch2]
      simp

/-- Counterexample to claim C2: `merge_trees` does not copy the entire
subtree under an action present in exactly one tree.  Tree A has, under
action 0, a child with its own child under action 1; tree B has no
children.  The merge copies only the child's stats: in the result the node
at path `[0, 1]` is gone, although the claim demands all descendants be
preserved verbatim. -/
theorem C2_counterexample :
    ∃ t : STree Nat,
      merge_rec (fun a b => a + b)
        (STree.mk 1
          [(0, STree.mk 2 [(1, STree.mk 3 [] Player.one false)] Player.two false)]
          Player.one false)
        (STree.mk 10 [] Player.one false) = Except.ok t ∧
      getNode
        (STree.mk 1
          [(0, STree.mk 2 [(1, STree.mk 3 [] Player.one false)] Player.two false)]
          Player.one false) [0, 1] = some (STree.mk 3 [] Player.one false) ∧
      getNode t [0, 1] = none := by
  refine ⟨STree.mk 11 [(0, STree.mk 2 [] Player.two false)] Player.one false,
    ?_, rfl, rfl⟩
  simp [merge_rec, mergeLoop, commonKeys, mergeUniques, childKeys, copyChildStats,
    lookupA, insertChild, STree.stats, Player.other]

/-- Claim C2, amended: `merge_trees` fails with an incompatibility error
when the two trees' root boards differ or their root players differ;
otherwise (for well-formed trees) it succeeds and produces a tree whose
root stats equal `merge_fn(A.stats, B.stats)` — in particular a
counter-summing merge function yields the sum the merge function
computes — whose root children key set is the union of both trees'
children key sets, with the child under each action present in both trees
merged recursively, and with the child under each action present in
exactly one tree replaced by a single fresh node carrying a copy of that
child's stats: its descendants are dropped, not preserved (see
`C2_counterexample` for why the original claim's "entire subtree copied
verbatim" fails). -/
theorem C2_merge_trees_amended {σ : Type} (f : σ → σ → σ) (h1 h2 : Handle σ)
    (t1 t2 : STree σ) (hw1 : WFT t1) (hw2 : WFT t2) (hp : t1.player = t2.player) :
    (h1.board ≠ h2.board →
      merge_trees f h1 h2 =
        Except.error "SearchTrees can not be merged, their boards mismatch") ∧
    (h1.board = h2.board → h1.tree.player ≠ h2.tree.player →
      merge_trees f h1 h2 =
        Except.error "SearchTrees can not be merged, their players mismatch") ∧
    (∃ t, merge_rec f t1 t2 = Except.ok t ∧
      t.stats = f t1.stats t2.stats ∧
      t.player = t1.player ∧
      (∀ m, (lookupA t.children m).isSome = true ↔
        ((lookupA t1.children m).isSome = true ∨
         (lookupA t2.children m).isSome = true)) ∧
      (∀ m ch1 ch2, lookupA t1.children m = some ch1 →
        lookupA t2.children m = some ch2 →
        ∃ mc, merge_rec f ch1 ch2 = Except.ok mc ∧ lookupA t.children m = some mc) ∧
      (∀ m ch1, lookupA t1.children m = some ch1 → lookupA t2.children m = none →
        lookupA t.children m = some (STree.mk ch1.stats [] t1.player.other false)) ∧
      (∀ m ch2, lookupA t1.children m = none → lookupA t2.children m = some ch2 →
        lookupA t.children m = some (STree.mk ch2.stats [] t1.player.other false))) ∧
    (∀ (b : Board) (t : STree σ), merge_rec f t1 t2 = Except.ok t →
      merge_trees f ⟨b, t1⟩ ⟨b, t2⟩ = Except.ok ⟨b, t⟩) := by
  refine ⟨?_, ?_, ?_, ?_⟩
  · intro hb
    have hbe : boardEq h1.board h2.board = false := by
      rcases h : boardEq h1.board h2.board with _ | _
      · rfl
      · exact absurd (boardEq_iff.mp h) hb
    unfold merge_trees
    rw [hbe]
  · intro hb hpne
    have hbe : boardEq h1.board h2.board = true := boardEq_iff.mpr hb
    unfold merge_trees
    rw [hbe]
    rcases ht1 : h1.tree with ⟨s1, c1, p1, e1⟩
    rcases ht2 : h2.tree with ⟨s2, c2, p2, e2⟩
    have hpne' : ¬ (p1 = p2) := by
      intro hcon
      apply hpne
      rw [ht1, ht2]
      simpa using hcon
    unfold merge_rec
    rw [if_neg hpne']
  · rcases t1 with ⟨s1, c1, p1, e1⟩
    rcases t2 with ⟨s2, c2, p2, e2⟩
    simp only [STree.player_mk] at hp
    rcases merge_rec_ok f (sizeOf (STree.mk s1 c1 p1 e1) + 1)
      (STree.mk s1 c1 p1 e1) (STree.mk s2 c2 p2 e2) (by omega) hw1 hw2
      (by simpa using hp) with ⟨t, hok⟩
    rcases merge_rec_spec f hw1.nodup hw2.nodup hp hok with
      ⟨hst, hpl, -, hun, hcom, hu1, hu2⟩
    exact ⟨t, hok, hst, by simpa using hpl, hun, hcom, by simpa using hu1,
      by simpa using hu2⟩
  · intro b t hok
    unfold merge_trees
    dsimp only
    rw [boardEq_iff.mpr rfl]
    simp only [hok]

/-- Witness for C2: merging two fresh single-node trees over the empty
board. -/
theorem C2_merge_trees_amended_witness :
    (Handle.board ⟨initialize_game_state, STree.mk (0 : Nat) [] Player.one false⟩ ≠
        Handle.board ⟨initialize_game_state, STree.mk (0 : Nat) [] Player.one false⟩ →
      merge_trees (fun a b => a + b)
        ⟨initialize_game_state, STree.mk 0 [] Player.one false⟩
        ⟨initialize_game_state, STree.mk 0 [] Player.one false⟩ =
        Except.error "SearchTrees can not be merged, their boards mismatch") ∧
    (Handle.board ⟨initialize_game_state, STree.mk (0 : Nat) [] Player.one false⟩ =
        Handle.board ⟨initialize_game_state, STree.mk (0 : Nat) [] Player.one false⟩ →
      (Handle.tree (σ := Nat)
        ⟨initialize_game_state, STree.mk 0 [] Player.one false⟩).player ≠
        (Handle.tree (σ := Nat)
          ⟨initialize_game_state, STree.mk 0 [] Player.one false⟩).player →
      merge_trees (fun a b => a + b)
        ⟨initialize_game_state, STree.mk 0 [] Player.one false⟩
        ⟨initialize_game_state, STree.mk 0 [] Player.one false⟩ =
        Except.error "SearchTrees can not be merged, their players mismatch") ∧
    (∃ t, merge_rec (fun a b => a + b) (STree.mk 0 [] Player.one false)
        (STree.mk 0 [] Player.one false) = Except.ok t ∧
      t.stats = (STree.mk (0 : Nat) [] Player.one false).stats +
        (STree.mk (0 : Nat) [] Player.one false).stats ∧
      t.player = (STree.mk (0 : Nat) [] Player.one false).player ∧
      (∀ m, (lookupA t.children m).isSome = true ↔
        ((lookupA (STree.mk (0 : Nat) [] Player.one false).children m).isSome = true ∨
         (lookupA (STree.mk (0 : Nat) [] Player.one false).children m).isSome = true)) ∧
      (∀ m ch1 ch2,
        lookupA (STree.mk (0 : Nat) [] Player.one false).children m = some ch1 →
        lookupA (STree.mk (0 : Nat) [] Player.one false).children m = some ch2 →
        ∃ mc, merge_rec (fun a b => a + b) ch1 ch2 = Except.ok mc ∧
          lookupA t.children m = some mc) ∧
      (∀ m ch1,
        lookupA (STree.mk (0 : Nat) [] Player.one false).children m = some ch1 →
        lookupA (STree.mk (0 : Nat) [] Player.one false).children m = none →
        lookupA t.children m = some (STree.mk ch1.stats []
          (STree.mk (0 : Nat) [] Player.one false).player.other false)) ∧
      (∀ m ch2,
        lookupA (STree.mk (0 : Nat) [] Player.one false).children m = none →
        lookupA (STree.mk (0 : Nat) [] Player.one false).children m = some ch2 →
        lookupA t.children m = some (STree.mk ch2.stats []
          (STree.mk (0 : Nat) [] Player.one false).player.other false))) ∧
    (∀ (b : Board) (t : STree Nat),
      merge_rec (fun a b => a + b) (STree.mk 0 [] Player.one false)
        (STree.mk 0 [] Player.one false) = Except.ok t →
      merge_trees (fun a b => a + b) ⟨b, STree.mk 0 [] Player.one false⟩
        ⟨b, STree.mk 0 [] Player.one false⟩ = Except.ok ⟨b, t⟩) :=
  C2_merge_trees_amended (fun a b => a + b)
    ⟨initialize_game_state, STree.mk 0 [] Player.one false⟩
    ⟨initialize_game_state, STree.mk 0 [] Player.one false⟩
    (STree.mk 0 [] Player.one false) (STree.mk 0 [] Player.one false)
    (WFT.mk (by simp [childKeys]) (by intro a c h; cases h) (by intro a c h; cases h))
    (WFT.mk (by simp [childKeys]) (by intro a c h; cases h) (by intro a c h; cases h))
    rfl

/-! ### Minimax with alpha-beta pruning (agent_minimax/minimax.py)

Values are `EReal`: the heuristic returns a signed scalar and the window
starts at `(-np.inf, np.inf)`. -/

/-- `_get_legal_moves` (minimax.py): legal columns sorted centre-first by
the key `(a - cols/2)**2`; for 7 columns the integer key `(2a - 7)^2`
induces the same order, and Python's stable `sorted` is a stable merge
sort. -/
def _get_legal_moves_sorted (b : Board) : List Nat :=
  (legalMovesN b).mergeSort (fun x y =>
    decide ((2 * (x : Int) - 7) ^ 2 ≤ (2 * (y : Int) - 7) ^ 2))

theorem mem_sorted_legal {b : Board} {a : Nat} :
    a ∈ _get_legal_moves_sorted b ↔ a ∈ legalMovesN b := by
  unfold _get_legal_moves_sorted
  exact List.mem_mergeSort

/-- `apply_player_action` as a total function (used only on legal moves,
where it agrees with the partial one). -/
def applyD (b : Board) (a : Nat) (p : Player) : Board :=
  (apply_player_action b a p).getD b

/-- `_update_alpha_beta` (minimax.py). -/
noncomputable def _update_alpha_beta (a b : EReal) (value : EReal) (player : Player) :
    EReal × EReal × Bool :=
  if player = Player.one then (max a value, b, decide (b ≤ value))
  else (a, min b value, decide (value ≤ a))

mutual

/-- `alpha_beta` (minimax.py): heuristic value at depth ≤ 0 or a terminal
state, else the pruned loop over the centre-first legal moves, starting
from `value = -color*inf` with `color = 1` for player 1 and `-1` for
player 2. -/
noncomputable def alpha_beta (board : Board) (depth : Nat) (a b : EReal)
    (player : Player) (heuristic : Board → EReal) : EReal :=
  if depth ≤ 0 ∨ check_end_state board player ≠ GameState.STILL_PLAYING then
    heuristic board
  else
    abLoop (depth - 1) player (if player = Player.one then 1 else -1) board heuristic
      (_get_legal_moves_sorted board) a b
      (-(if player = Player.one then (1 : EReal) else -1) * ⊤)
termination_by (depth, 0, 0)
decreasing_by
· rename_i hg
  apply Prod.Lex.left
  omega

/-- The `for action in _get_legal_moves(board)` loop of `alpha_beta`:
`value = max(color*value, color*alpha_beta(child, depth-1, a, b, other)) * color`,
then update the window and break on prune.  The `none` branch of the apply
match is unreachable (every action in the list is legal). -/
noncomputable def abLoop (d : Nat) (player : Player) (color : EReal) (board : Board)
    (heuristic : Board → EReal) :
    List Nat → EReal → EReal → EReal → EReal
  | [], _, _, value => value
  | action :: rest, a, b, value =>
    match apply_player_action board action player with
    | none => abLoop d player color board heuristic rest a b value
    | some child =>
      let v2 := (max (color * value)
        (color * alpha_beta child d a b player.other heuristic)) * color
      match _update_alpha_beta a b v2 player with
      | (a2, b2, prune) =>
        if prune then v2 else abLoop d player color board heuristic rest a2 b2 v2
termination_by l _ _ _ => (d, 1, l.length)
decreasing_by
all_goals
  apply Prod.Lex.right
  first
  | (apply Prod.Lex.left
     omega)
  | (apply Prod.Lex.right
     simp only [List.length_cons]
     omega)

end

/-- Modelled from the claim: the plain unpruned minimax recursion over the
same embedding — heuristic at depth ≤ 0 or a terminal state, otherwise
player 1 maximises and player 2 minimises the recursively evaluated child
values over the same move list. -/
noncomputable def minimax (board : Board) (depth : Nat) (player : Player)
    (heuristic : Board → EReal) : EReal :=
  if depth ≤ 0 ∨ check_end_state board player ≠ GameState.STILL_PLAYING then
    heuristic board
  else if player = Player.one then
    ((_get_legal_moves_sorted board).map (fun action =>
      minimax (applyD board action player) (depth - 1) player.other heuristic)).foldl max ⊥
  else
    ((_get_legal_moves_sorted board).map (fun action =>
      minimax (applyD board action player) (depth - 1) player.other heuristic)).foldl min ⊤
termination_by depth
decreasing_by
· omega
· omega

theorem alpha_beta_guard (board : Board) (depth : Nat) (a b : EReal) (player : Player)
    (heuristic : Board → EReal)
    (hg : depth ≤ 0 ∨ check_end_state board player ≠ GameState.STILL_PLAYING) :
    alpha_beta board depth a b player heuristic = heuristic board := by
  unfold alpha_beta
  rw [if_pos hg]

theorem minimax_guard (board : Board) (depth : Nat) (player : Player)
    (heuristic : Board → EReal)
    (hg : depth ≤ 0 ∨ check_end_state board player ≠ GameState.STILL_PLAYING) :
    minimax board depth player heuristic = heuristic board := by
  unfold minimax
  rw [if_pos hg]

theorem alpha_beta_step_one (board : Board) (depth : Nat) (a b : EReal)
    (heuristic : Board → EReal)
    (hg : ¬(depth ≤ 0 ∨ check_end_state board Player.one ≠ GameState.STILL_PLAYING)) :
    alpha_beta board depth a b Player.one heuristic =
      abLoop (depth - 1) Player.one 1 board heuristic (_get_legal_moves_sorted board) a b ⊥ := by
  unfold alpha_beta
  rw [if_neg hg]
  norm_num

theorem alpha_beta_step_two (board : Board) (depth : Nat) (a b : EReal)
    (heuristic : Board → EReal)
    (hg : ¬(depth ≤ 0 ∨ check_end_state board Player.two ≠ GameState.STILL_PLAYING)) :
    alpha_beta board depth a b Player.two heuristic =
      abLoop (depth - 1) Player.two (-1) board heuristic (_get_legal_moves_sorted board) a b ⊤ := by
  unfold alpha_beta
  rw [if_neg hg]
  have hne : ¬(Player.two = Player.one) := by simp
  simp only [if_neg hne, neg_neg, one_mul]

theorem minimax_step_one (board : Board) (depth : Nat) (heuristic : Board → EReal)
    (hg : ¬(depth ≤ 0 ∨ check_end_state board Player.one ≠ GameState.STILL_PLAYING)) :
    minimax board depth Player.one heuristic =
      ((_get_legal_moves_sorted board).map (fun action =>
        minimax (applyD board action Player.one) (depth - 1) Player.two heuristic)).foldl
        max ⊥ := by
  conv_lhs => unfold minimax
  rw [if_neg hg, if_pos rfl]
  rfl

theorem minimax_step_two (board : Board) (depth : Nat) (heuristic : Board → EReal)
    (hg : ¬(depth ≤ 0 ∨ check_end_state board Player.two ≠ GameState.STILL_PLAYING)) :
    minimax board depth Player.two heuristic =
      ((_get_legal_moves_sorted board).map (fun action =>
        minimax (applyD board action Player.two) (depth - 1) Player.one heuristic)).foldl
        min ⊤ := by
  conv_lhs => unfold minimax
  rw [if_neg hg]
  have hne : ¬(Player.two = Player.one) := by simp
  rw [if_neg hne]
  rfl

theorem abLoop_nil (d : Nat) (player : Player) (color : EReal) (board : Board)
    (heuristic : Board → EReal) (a b value : EReal) :
    abLoop d player color board heuristic [] a b value = value := by
  unfold abLoop
  rfl

theorem abLoop_cons_one (d : Nat) (board : Board) (heuristic : Board → EReal)
    (action : Nat) (rest : List Nat) (a b value : EReal) (child : Board)
    (hap : apply_player_action board action Player.one = some child) :
    abLoop d Player.one 1 board heuristic (action :: rest) a b value =
      (if b ≤ max value (alpha_beta child d a b Player.two heuristic)
       then max value (alpha_beta child d a b Player.two heuristic)
       else abLoop d Player.one 1 board heuristic rest
         (max a (max value (alpha_beta child d a b Player.two heuristic))) b
         (max value (alpha_beta child d a b Player.two heuristic))) := by
  conv_lhs => unfold abLoop
  split
  · rename_i heq
    rw [hap] at heq
    exact Option.noConfusion heq
  · rename_i child2 heq
    rw [hap] at heq
    injection heq with h2
    subst h2
    show (let v2 := (max ((1 : EReal) * value)
        (1 * alpha_beta child d a b Player.one.other heuristic)) * 1
      match _update_alpha_beta a b v2 Player.one with
      | (a2, b2, prune) =>
        if prune then v2 else abLoop d Player.one 1 board heuristic rest a2 b2 v2) = _
    have hoth : Player.one.other = Player.two := rfl
    simp only [one_mul, mul_one, hoth]
    have h1 : _update_alpha_beta a b
        (max value (alpha_beta child d a b Player.two heuristic)) Player.one =
        (max a (max value (alpha_beta child d a b Player.two heuristic)), b,
         decide (b ≤ max value (alpha_beta child d a b Player.two heuristic))) := by
      unfold _update_alpha_beta
      rw [if_pos rfl]
    rw [h1]
    simp only [decide_eq_true_eq]

theorem abLoop_cons_two (d : Nat) (board : Board) (heuristic : Board → EReal)
    (action : Nat) (rest : List Nat) (a b value : EReal) (child : Board)
    (hap : apply_player_action board action Player.two = some child) :
    abLoop d Player.two (-1) board heuristic (action :: rest) a b value =
      (if min value (alpha_beta child d a b Player.one heuristic) ≤ a
       then min value (alpha_beta child d a b Player.one heuristic)
       else abLoop d Player.two (-1) board heuristic rest a
         (min b (min value (alpha_beta child d a b Player.one heuristic)))
         (min value (alpha_beta child d a b Player.one heuristic))) := by
  conv_lhs => unfold abLoop
  split
  · rename_i heq
    rw [hap] at heq
    exact Option.noConfusion heq
  · rename_i child2 heq
    rw [hap] at heq
    injection heq with h2
    subst h2
    show (let v2 := (max ((-1 : EReal) * value)
        (-1 * alpha_beta child d a b Player.two.other heuristic)) * (-1)
      match _update_alpha_beta a b v2 Player.two with
      | (a2, b2, prune) =>
        if prune then v2 else abLoop d Player.two (-1) board heuristic rest a2 b2 v2) = _
    have hval : (max ((-1 : EReal) * value)
        (-1 * alpha_beta child d a b Player.two.other heuristic)) * (-1) =
        min value (alpha_beta child d a b Player.one heuristic) := by
      show (max ((-1 : EReal) * value)
        (-1 * alpha_beta child d a b Player.one heuristic)) * (-1) = _
      rw [neg_one_mul, neg_one_mul, EReal.max_neg_neg, neg_mul_neg, mul_one]
    simp only [hval]
    have hne : ¬(Player.two = Player.one) := by simp
    have h1 : _update_alpha_beta a b
        (min value (alpha_beta child d a b Player.one heuristic)) Player.two =
        (a, min b (min value (alpha_beta child d a b Player.one heuristic)),
         decide (min value (alpha_beta child d a b Player.one heuristic) ≤ a)) := by
      unfold _update_alpha_beta
      rw [if_neg hne]
    rw [h1]
    simp only [decide_eq_true_eq]

theorem le_foldl_max {α : Type} [LinearOrder α] :
    ∀ (l : List α) (x : α), x ≤ l.foldl max x := by
  intro l
  induction l with
  | nil => intro x; exact le_refl x
  | cons h t ih =>
    intro x
    calc x ≤ max x h := le_max_left x h
      _ ≤ (t.foldl max (max x h)) := ih _

theorem foldl_max_mono {α : Type} [LinearOrder α] :
    ∀ (l : List α) {x y : α}, x ≤ y → l.foldl max x ≤ l.foldl max y := by
  intro l
  induction l with
  | nil => intro x y h; exact h
  | cons h t ih =>
    intro x y hxy
    exact ih (max_le_max hxy (le_refl h))

theorem foldl_max_init {α : Type} [LinearOrder α] :
    ∀ (l : List α) (x y : α), l.foldl max (max x y) = max (l.foldl max x) y := by
  intro l
  induction l with
  | nil => intro x y; rfl
  | cons h t ih =>
    intro x y
    have : max (max x y) h = max (max x h) y := by
      rw [max_assoc, max_comm y h, max_assoc]
    rw [List.foldl_cons, this, ih, List.foldl_cons]

theorem foldl_min_le {α : Type} [LinearOrder α] :
    ∀ (l : List α) (x : α), l.foldl min x ≤ x := by
  intro l
  induction l with
  | nil => intro x; exact le_refl x
  | cons h t ih =>
    intro x
    calc (t.foldl min (min x h)) ≤ min x h := ih _
      _ ≤ x := min_le_left x h

theorem foldl_min_mono {α : Type} [LinearOrder α] :
    ∀ (l : List α) {x y : α}, x ≤ y → l.foldl min x ≤ l.foldl min y := by
  intro l
  induction l with
  | nil => intro x y h; exact h
  | cons h t ih =>
    intro x y hxy
    exact ih (min_le_min hxy (le_refl h))

theorem foldl_min_init {α : Type} [LinearOrder α] :
    ∀ (l : List α) (x y : α), l.foldl min (min x y) = min (l.foldl min x) y := by
  intro l
  induction l with
  | nil => intro x y; rfl
  | cons h t ih =>
    intro x y
    have : min (min x y) h = min (min x h) y := min_right_comm x y h
    rw [List.foldl_cons, this, ih, List.foldl_cons]

/-- Fail-soft invariant of the maximising player's loop: the running value
only grows, a fail-high result underestimates the exact max of the child
minimax values, a fail-low result overestimates it, and a result strictly
inside the window equals it. -/
theorem abLoop_one_spec (d : Nat) (board : Board) (heuristic : Board → EReal) (b : EReal)
    (ih : ∀ (c : Board) (a2 b2 : EReal), a2 < b2 →
      (alpha_beta c d a2 b2 Player.two heuristic ≤ a2 →
        minimax c d Player.two heuristic ≤ alpha_beta c d a2 b2 Player.two heuristic) ∧
      (b2 ≤ alpha_beta c d a2 b2 Player.two heuristic →
        alpha_beta c d a2 b2 Player.two heuristic ≤ minimax c d Player.two heuristic) ∧
      (a2 < alpha_beta c d a2 b2 Player.two heuristic →
        alpha_beta c d a2 b2 Player.two heuristic < b2 →
        alpha_beta c d a2 b2 Player.two heuristic = minimax c d Player.two heuristic)) :
    ∀ (l : List Nat), (∀ x ∈ l, x ∈ legalMovesN board) →
    ∀ (a v : EReal), a < b → v ≤ a →
      v ≤ abLoop d Player.one 1 board heuristic l a b v ∧
      (b ≤ abLoop d Player.one 1 board heuristic l a b v →
        abLoop d Player.one 1 board heuristic l a b v ≤
          (l.map (fun x =>
            minimax (applyD board x Player.one) d Player.two heuristic)).foldl max v) ∧
      (abLoop d Player.one 1 board heuristic l a b v ≤ a →
        (l.map (fun x =>
          minimax (applyD board x Player.one) d Player.two heuristic)).foldl max v ≤
          abLoop d Player.one 1 board heuristic l a b v) ∧
      (a < abLoop d Player.one 1 board heuristic l a b v →
        abLoop d Player.one 1 board heuristic l a b v < b →
        abLoop d Player.one 1 board heuristic l a b v =
          (l.map (fun x =>
            minimax (applyD board x Player.one) d Player.two heuristic)).foldl max v) := by
  intro l
  induction l with
  | nil =>
    intro _ a v hab hva
    rw [abLoop_nil]
    simp only [List.map_nil, List.foldl_nil]
    exact ⟨le_refl v, fun _ => le_refl v, fun _ => le_refl v, fun _ _ => trivial⟩
  | cons x rest IHl =>
    intro hleg a v hab hva
    have hx : x ∈ legalMovesN board := hleg x (List.mem_cons_self x rest)
    obtain ⟨child, hap⟩ := apply_player_action_isSome (p := Player.one) hx
    have happD : applyD board x Player.one = child := by
      unfold applyD
      rw [hap]
      rfl
    rw [abLoop_cons_one d board heuristic x rest a b v child hap]
    simp only [List.map_cons, List.foldl_cons, happD]
    set ab := alpha_beta child d a b Player.two heuristic with hab_def
    set m := minimax child d Player.two heuristic with hm_def
    obtain ⟨ihFL, ihFH, ihEX⟩ := ih child a b hab
    by_cases hpr : b ≤ max v ab
    · rw [if_pos hpr]
      have hvb : v < b := lt_of_le_of_lt hva hab
      have hbab : b ≤ ab := by
        rcases le_max_iff.mp hpr with h | h
        · exact absurd h (not_le.mpr hvb)
        · exact h
      have habm : ab ≤ m := ihFH hbab
      refine ⟨le_max_left v ab, fun _ => ?_, fun hwa => ?_, fun h1 h2 => ?_⟩
      · calc max v ab ≤ max v m := max_le_max (le_refl v) habm
          _ ≤ (rest.map (fun x =>
              minimax (applyD board x Player.one) d Player.two heuristic)).foldl
              max (max v m) := le_foldl_max _ _
      · exact absurd hwa (not_le.mpr (lt_of_lt_of_le hab (le_trans hbab (le_max_right v ab))))
      · exact absurd h2 (not_lt.mpr (le_trans hbab (le_max_right v ab)))
    · rw [if_neg hpr]
      have hv2b : max v ab < b := not_le.mp hpr
      have ha2b : max a (max v ab) < b := max_lt hab hv2b
      obtain ⟨G0r, G1r, G2r, G3r⟩ := IHl (fun y hy => hleg y (List.mem_cons_of_mem x hy))
        (max a (max v ab)) (max v ab) ha2b (le_max_right _ _)
      rcases le_or_lt ab a with hfl | hfh
      · -- the child failed low: its exact value is at most `ab ≤ a`
        have hm : m ≤ ab := ihFL hfl
        have hv2a : max v ab ≤ a := max_le hva hfl
        have ha2 : max a (max v ab) = a := max_eq_left hv2a
        rw [ha2] at G0r G1r G2r G3r ⊢
        have hMMr : (rest.map (fun x =>
            minimax (applyD board x Player.one) d Player.two heuristic)).foldl
              max (max v m) ≤
            (rest.map (fun x =>
              minimax (applyD board x Player.one) d Player.two heuristic)).foldl
              max (max v ab) :=
          foldl_max_mono _ (max_le_max (le_refl v) hm)
        have hMrM : (rest.map (fun x =>
            minimax (applyD board x Player.one) d Player.two heuristic)).foldl
              max (max v ab) ≤
            max ((rest.map (fun x =>
              minimax (applyD board x Player.one) d Player.two heuristic)).foldl
              max (max v m)) ab := by
          calc (rest.map (fun x =>
              minimax (applyD board x Player.one) d Player.two heuristic)).foldl
                max (max v ab) ≤
              (rest.map (fun x =>
                minimax (applyD board x Player.one) d Player.two heuristic)).foldl
                max (max (max v m) ab) :=
            foldl_max_mono _ (max_le_max (le_max_left v m) (le_refl ab))
            _ = _ := foldl_max_init _ _ _
        refine ⟨le_trans (le_max_left v ab) G0r, fun hbw => ?_, fun hwa => ?_,
          fun h1 h2 => ?_⟩
        · rcases le_max_iff.mp (le_trans (G1r hbw) hMrM) with h | h
          · exact h
          · exact absurd (lt_of_lt_of_le hab hbw) (not_lt.mpr (le_trans h hfl))
        · exact le_trans hMMr (G2r hwa)
        · have hMr := G3r h1 h2
          refine le_antisymm ?_ ?_
          · rw [hMr]
            rcases le_max_iff.mp hMrM with h | h
            · exact h
            · exact absurd h1 (not_lt.mpr (le_trans (le_of_eq hMr) (le_trans h hfl)))
          · rw [hMr]
            exact hMMr
      · -- in-window child: exact, so the running fold agrees with minimax
        have habb : ab < b := lt_of_le_of_lt (le_max_right v ab) hv2b
        have hex : ab = m := ihEX hfh habb
        rw [hex] at G0r G1r G2r G3r ⊢
        refine ⟨le_trans (le_max_left v m) G0r, G1r, fun hwa => ?_, fun h1 h2 => ?_⟩
        · exact absurd (lt_of_lt_of_le hfh
            (le_trans (hex ▸ le_max_right v ab) (le_trans G0r hwa))) (lt_irrefl a)
        · rcases le_or_lt (abLoop d Player.one 1 board heuristic rest
            (max a (max v m)) b (max v m)) (max a (max v m)) with hle | hlt
          · have hwv2 : abLoop d Player.one 1 board heuristic rest
                (max a (max v m)) b (max v m) = max v m := by
              rcases le_max_iff.mp hle with h | h
              · exact absurd h1 (not_lt.mpr h)
              · exact le_antisymm h G0r
            rw [hwv2]
            exact le_antisymm (le_foldl_max _ _) (le_trans (G2r hle) (le_of_eq hwv2))
          · exact G3r hlt h2

/-- Fail-soft invariant of the minimising player's loop, the mirror image
of the maximising one: the running value only shrinks, fail-low
overestimates the exact min, fail-high underestimates it, and a result
strictly inside the window is exact. -/
theorem abLoop_two_spec (d : Nat) (board : Board) (heuristic : Board → EReal) (a : EReal)
    (ih : ∀ (c : Board) (a2 b2 : EReal), a2 < b2 →
      (alpha_beta c d a2 b2 Player.one heuristic ≤ a2 →
        minimax c d Player.one heuristic ≤ alpha_beta c d a2 b2 Player.one heuristic) ∧
      (b2 ≤ alpha_beta c d a2 b2 Player.one heuristic →
        alpha_beta c d a2 b2 Player.one heuristic ≤ minimax c d Player.one heuristic) ∧
      (a2 < alpha_beta c d a2 b2 Player.one heuristic →
        alpha_beta c d a2 b2 Player.one heuristic < b2 →
        alpha_beta c d a2 b2 Player.one heuristic = minimax c d Player.one heuristic)) :
    ∀ (l : List Nat), (∀ x ∈ l, x ∈ legalMovesN board) →
    ∀ (b v : EReal), a < b → b ≤ v →
      abLoop d Player.two (-1) board heuristic l a b v ≤ v ∧
      (b ≤ abLoop d Player.two (-1) board heuristic l a b v →
        abLoop d Player.two (-1) board heuristic l a b v ≤
          (l.map (fun x =>
            minimax (applyD board x Player.two) d Player.one heuristic)).foldl min v) ∧
      (abLoop d Player.two (-1) board heuristic l a b v ≤ a →
        (l.map (fun x =>
          minimax (applyD board x Player.two) d Player.one heuristic)).foldl min v ≤
          abLoop d Player.two (-1) board heuristic l a b v) ∧
      (a < abLoop d Player.two (-1) board heuristic l a b v →
        abLoop d Player.two (-1) board heuristic l a b v < b →
        abLoop d Player.two (-1) board heuristic l a b v =
          (l.map (fun x =>
            minimax (applyD board x Player.two) d Player.one heuristic)).foldl min v) := by
  intro l
  induction l with
  | nil =>
    intro _ b v hab hbv
    rw [abLoop_nil]
    simp only [List.map_nil, List.foldl_nil]
    exact ⟨le_refl v, fun _ => le_refl v, fun _ => le_refl v, fun _ _ => trivial⟩
  | cons x rest IHl =>
    intro hleg b v hab hbv
    have hx : x ∈ legalMovesN board := hleg x (List.mem_cons_self x rest)
    obtain ⟨child, hap⟩ := apply_player_action_isSome (p := Player.two) hx
    have happD : applyD board x Player.two = child := by
      unfold applyD
      rw [hap]
      rfl
    rw [abLoop_cons_two d board heuristic x rest a b v child hap]
    simp only [List.map_cons, List.foldl_cons, happD]
    set ab := alpha_beta child d a b Player.one heuristic with hab_def
    set m := minimax child d Player.one heuristic with hm_def
    obtain ⟨ihFL, ihFH, ihEX⟩ := ih child a b hab
    have hav : a < v := lt_of_lt_of_le hab hbv
    by_cases hpr : min v ab ≤ a
    · rw [if_pos hpr]
      have haab : ab ≤ a := by
        rcases min_le_iff.mp hpr with h | h
        · exact absurd h (not_le.mpr hav)
        · exact h
      have hma : m ≤ ab := ihFL haab
      refine ⟨min_le_left v ab, fun hbw => ?_, fun _ => ?_, fun h1 h2 => ?_⟩
      · exact absurd hbw (not_le.mpr (lt_of_le_of_lt (le_trans (min_le_right v ab) haab) hab))
      · exact le_trans (foldl_min_le (rest.map (fun x =>
          minimax (applyD board x Player.two) d Player.one heuristic)) (min v m))
          (min_le_min (le_refl v) hma)
      · exact absurd h1 (not_lt.mpr (le_trans (min_le_right v ab) haab))
    · rw [if_neg hpr]
      have hav2 : a < min v ab := not_le.mp hpr
      have hab2 : a < min b (min v ab) := lt_min hab hav2
      obtain ⟨G0r, G1r, G2r, G3r⟩ := IHl (fun y hy => hleg y (List.mem_cons_of_mem x hy))
        (min b (min v ab)) (min v ab) hab2 (min_le_right _ _)
      rcases le_or_lt b ab with hfh | habb
      · -- the child failed high: its exact value is at least `ab ≥ b`
        have hm : ab ≤ m := ihFH hfh
        have hbv2 : b ≤ min v ab := le_min hbv hfh
        have hb2 : min b (min v ab) = b := min_eq_left hbv2
        rw [hb2] at G0r G1r G2r G3r ⊢
        have hMrM : (rest.map (fun x =>
            minimax (applyD board x Player.two) d Player.one heuristic)).foldl
              min (min v ab) ≤
            (rest.map (fun x =>
              minimax (applyD board x Player.two) d Player.one heuristic)).foldl
              min (min v m) :=
          foldl_min_mono _ (min_le_min (le_refl v) hm)
        have hMMr : min ((rest.map (fun x =>
            minimax (applyD board x Player.two) d Player.one heuristic)).foldl
              min (min v m)) ab ≤
            (rest.map (fun x =>
              minimax (applyD board x Player.two) d Player.one heuristic)).foldl
              min (min v ab) := by
          calc min ((rest.map (fun x =>
              minimax (applyD board x Player.two) d Player.one heuristic)).foldl
                min (min v m)) ab =
              (rest.map (fun x =>
                minimax (applyD board x Player.two) d Player.one heuristic)).foldl
                min (min (min v m) ab) := (foldl_min_init _ _ _).symm
            _ ≤ _ := foldl_min_mono _ (min_le_min (min_le_left v m) (le_refl ab))
        refine ⟨le_trans G0r (min_le_left v ab), fun hbw => ?_, fun hwa => ?_,
          fun h1 h2 => ?_⟩
        · exact le_trans (G1r hbw) hMrM
        · have hminw := le_trans hMMr (G2r hwa)
          rcases le_total ((rest.map (fun x =>
              minimax (applyD board x Player.two) d Player.one heuristic)).foldl
              min (min v m)) ab with h | h
          · rwa [min_eq_left h] at hminw
          · rw [min_eq_right h] at hminw
            exact absurd (lt_of_lt_of_le hab (le_trans (le_trans hfh hminw) hwa)) (lt_irrefl a)
        · have hMr := G3r h1 h2
          refine le_antisymm (le_trans (le_of_eq hMr) hMrM) ?_
          rcases le_total ((rest.map (fun x =>
              minimax (applyD board x Player.two) d Player.one heuristic)).foldl
              min (min v m)) ab with h | h
          · exact le_trans (le_trans (le_of_eq (min_eq_left h).symm) hMMr) (le_of_eq hMr.symm)
          · have habw : ab ≤ abLoop d Player.two (-1) board heuristic rest a b (min v ab) :=
              le_trans (le_trans (le_of_eq (min_eq_right h).symm) hMMr) (le_of_eq hMr.symm)
            exact absurd h2 (not_lt.mpr (le_trans hfh habw))
      · -- in-window child: exact value
        have hfh2 : a < ab := lt_of_lt_of_le hav2 (min_le_right v ab)
        have hex : ab = m := ihEX hfh2 habb
        rw [hex] at G0r G1r G2r G3r hav2 hab2 ⊢
        refine ⟨le_trans G0r (min_le_left v m), fun hbw => ?_, G2r, fun h1 h2 => ?_⟩
        · exact absurd (lt_of_le_of_lt (le_trans hbw
            (le_trans G0r (min_le_right v m))) (hex ▸ habb)) (lt_irrefl b)
        · rcases le_or_lt (min b (min v m))
            (abLoop d Player.two (-1) board heuristic rest a (min b (min v m)) (min v m))
            with hle | hlt
          · have hwv2 : abLoop d Player.two (-1) board heuristic rest a
                (min b (min v m)) (min v m) = min v m := by
              rcases min_le_iff.mp hle with h | h
              · exact absurd h2 (not_lt.mpr h)
              · exact le_antisymm G0r h
            rw [hwv2]
            exact le_antisymm (le_trans (le_of_eq hwv2.symm) (G1r hle)) (foldl_min_le _ _)
          · exact G3r h1 hlt

/-- Fail-soft alpha-beta soundness at every window: a fail-low result
bounds the minimax value from above, a fail-high result from below, and a
result strictly inside the window equals it. -/
theorem alpha_beta_spec (heuristic : Board → EReal) :
    ∀ (depth : Nat) (board : Board) (player : Player) (a b : EReal), a < b →
      (alpha_beta board depth a b player heuristic ≤ a →
        minimax board depth player heuristic ≤ alpha_beta board depth a b player heuristic) ∧
      (b ≤ alpha_beta board depth a b player heuristic →
        alpha_beta board depth a b player heuristic ≤ minimax board depth player heuristic) ∧
      (a < alpha_beta board depth a b player heuristic →
        alpha_beta board depth a b player heuristic < b →
        alpha_beta board depth a b player heuristic =
          minimax board depth player heuristic) := by
  intro depth
  induction depth with
  | zero =>
    intro board player a b hab
    rw [alpha_beta_guard board 0 a b player heuristic (Or.inl (Nat.le_refl 0)),
        minimax_guard board 0 player heuristic (Or.inl (Nat.le_refl 0))]
    exact ⟨fun _ => le_refl _, fun _ => le_refl _, fun _ _ => rfl⟩
  | succ depth IH =>
    intro board player a b hab
    by_cases hterm : check_end_state board player = GameState.STILL_PLAYING
    · have hguard : ¬(depth + 1 ≤ 0 ∨
          check_end_state board player ≠ GameState.STILL_PLAYING) := by
        push_neg
        exact ⟨by omega, hterm⟩
      cases player with
      | one =>
        rw [alpha_beta_step_one board (depth + 1) a b heuristic hguard,
            minimax_step_one board (depth + 1) heuristic hguard]
        simp only [Nat.add_sub_cancel]
        obtain ⟨_, G1, G2, G3⟩ := abLoop_one_spec depth board heuristic b
          (fun c a2 b2 h => IH c Player.two a2 b2 h)
          (_get_legal_moves_sorted board)
          (fun x hx => mem_sorted_legal.mp hx)
          a ⊥ hab bot_le
        exact ⟨G2, G1, G3⟩
      | two =>
        rw [alpha_beta_step_two board (depth + 1) a b heuristic hguard,
            minimax_step_two board (depth + 1) heuristic hguard]
        simp only [Nat.add_sub_cancel]
        obtain ⟨_, G1, G2, G3⟩ := abLoop_two_spec depth board heuristic a
          (fun c a2 b2 h => IH c Player.one a2 b2 h)
          (_get_legal_moves_sorted board)
          (fun x hx => mem_sorted_legal.mp hx)
          b ⊤ hab le_top
        exact ⟨G2, G1, G3⟩
    · have hguard : depth + 1 ≤ 0 ∨
          check_end_state board player ≠ GameState.STILL_PLAYING := Or.inr hterm
      rw [alpha_beta_guard board (depth + 1) a b player heuristic hguard,
          minimax_guard board (depth + 1) player heuristic hguard]
      exact ⟨fun _ => le_refl _, fun _ => le_refl _, fun _ _ => rfl⟩

/-- Claim C9: Alpha-beta pruning soundness — for every board, depth,
player and heuristic, `alpha_beta` at the full window `(-∞, +∞)` returns
exactly the value of the plain unpruned minimax recursion over the same
embedding (heuristic at depth ≤ 0 or a terminal state; otherwise player 1
maximises and player 2 minimises the recursively evaluated child values
over the same legal-move list). -/
theorem C9_alpha_beta_minimax (board : Board) (depth : Nat) (player : Player)
    (heuristic : Board → EReal) :
    alpha_beta board depth ⊥ ⊤ player heuristic = minimax board depth player heuristic := by
  obtain ⟨h1, h2, h3⟩ :=
    alpha_beta_spec heuristic depth board player ⊥ ⊤ bot_lt_top
  rcases le_or_lt (alpha_beta board depth ⊥ ⊤ player heuristic) ⊥ with hle | hgt
  · have hb : alpha_beta board depth ⊥ ⊤ player heuristic = ⊥ := le_bot_iff.mp hle
    have hm := h1 hle
    rw [hb] at hm ⊢
    exact (le_bot_iff.mp hm).symm
  · rcases le_or_lt ⊤ (alpha_beta board depth ⊥ ⊤ player heuristic) with hge | hlt
    · have ht : alpha_beta board depth ⊥ ⊤ player heuristic = ⊤ := top_le_iff.mp hge
      have hm := h2 hge
      rw [ht] at hm ⊢
      exact (top_le_iff.mp hm).symm
    · exact h3 hgt hlt

/-! ### The MCTS iteration (mcts.py): `_select_and_expand` fused with
`_propagate_up`; the two sources of randomness (`np.random.choice` of an
untried move and the playout `_simulate`) enter as oracles: an index into
the untried-move list and the winner of the simulated game. -/

/-- `max(node.children, key=lambda mv: selection_function(child.stats,
node.stats, node.player))`: Python's `max` keeps the first element and
replaces the running best only on a strictly greater key, so ties go to
the earlier (insertion-order) child. -/
def argmaxChild {σ V : Type} [LinearOrder V] (sel : σ → σ → Player → V)
    (t : STree σ) : Option Nat :=
  match t.children with
  | [] => none
  | (a, c) :: rest =>
    some ((rest.foldl (fun best mc =>
      if sel best.2 t.stats t.player < sel mc.2.stats t.stats t.player
      then (mc.1, mc.2.stats) else best) (a, c.stats)).1)

mutual

/-- One MCTS iteration below a node (`_selection_helper` of mcts.py fused
with the stats update of `_propagate_up`, which touches exactly the nodes
on the descent path): stop at a flagged end state; if some legal move is
untried, expand it (fresh child with flipped player and the end-state flag
computed from the resulting position) — the oracle `pick` chooses among
the untried moves; otherwise descend into the argmax child of the
selection function.  Every node on the path gets `upd stats winner`, where
the oracle `winner` is the result of `_simulate`.  `none` models the
source's uncaught exceptions (`max` on an empty dict, an illegal
`apply_player_action`). -/
def _selection_helper {σ V : Type} [LinearOrder V] (sel : σ → σ → Player → V)
    (upd : σ → Winner → σ) (e0 : σ) (pick : Nat) (winner : Winner) :
    STree σ → Board → Option (STree σ)
  | STree.mk s ch pl ie, board =>
    if ie then some (STree.mk (upd s winner) ch pl ie)
    else if ch.length < (legalMovesN board).length then
      match (legalMovesN board).filter (fun m => !((childKeys ch).contains m)) with
      | [] => none
      | u :: us =>
        match apply_player_action board ((u :: us).getD (pick % (u :: us).length) u) pl with
        | none => none
        | some board2 =>
          some (STree.mk (upd s winner)
            (ch ++ [((u :: us).getD (pick % (u :: us).length) u,
              STree.mk (upd e0 winner) [] pl.other
                (decide (check_end_state board2 pl ≠ GameState.STILL_PLAYING)))])
            pl ie)
    else
      match argmaxChild sel (STree.mk s ch pl ie) with
      | none => none
      | some m =>
        match apply_player_action board m pl with
        | none => none
        | some board2 =>
          match selLoop sel upd e0 pick winner m board2 ch with
          | none => none
          | some ch2 => some (STree.mk (upd s winner) ch2 pl ie)

/-- Replacing the selected child `node.children[move]` by the result of
the recursive descent (the in-place mutation of the source, made
explicit on the children list). -/
def selLoop {σ V : Type} [LinearOrder V] (sel : σ → σ → Player → V)
    (upd : σ → Winner → σ) (e0 : σ) (pick : Nat) (winner : Winner)
    (m : Nat) (board2 : Board) :
    List (Nat × STree σ) → Option (List (Nat × STree σ))
  | [] => none
  | (a, c) :: rest =>
    if a = m then
      match _selection_helper sel upd e0 pick winner c board2 with
      | some c2 => some ((a, c2) :: rest)
      | none => none
    else
      match selLoop sel upd e0 pick winner m board2 rest with
      | some rest2 => some ((a, c) :: rest2)
      | none => none

end

/-- `logic.run(_monte_carlo_tree_search, search_tree)`: any number of MCTS
iterations, one oracle pair per iteration.  The shared root board never
changes during iterations. -/
def mctsRun {σ V : Type} [LinearOrder V] (sel : σ → σ → Player → V)
    (upd : σ → Winner → σ) (e0 : σ) :
    List (Nat × Winner) → STree σ → Board → Option (STree σ)
  | [], t, _ => some t
  | (pick, winner) :: os, t, board =>
    match _selection_helper sel upd e0 pick winner t board with
    | some t2 => mctsRun sel upd e0 os t2 board
    | none => none

/-- `SearchTree(root_board=board, player=player)`: empty stats, no
children, no `is_end_state` attribute (so `getattr` yields `False`). -/
def freshTree {σ : Type} (e0 : σ) (player : Player) : STree σ :=
  STree.mk e0 [] player false

/-- `n` is a proper descendant of `t`: reachable through at least one
child link. -/
inductive NodeBelow {σ : Type} : STree σ → STree σ → Prop where
  | child {t c : STree σ} (m : Nat) (hm : (m, c) ∈ t.children) : NodeBelow c t
  | step {t c n : STree σ} (m : Nat) (hm : (m, c) ∈ t.children)
      (hn : NodeBelow n c) : NodeBelow n t

/-- `n` is a node of the tree `t` (the root or a proper descendant). -/
def NodeIn {σ : Type} (n t : STree σ) : Prop := n = t ∨ NodeBelow n t

theorem nodeBelow_mk {σ : Type} {n : STree σ} {s : σ} {ch : List (Nat × STree σ)}
    {pl : Player} {e : Bool} :
    NodeBelow n (STree.mk s ch pl e) ↔
      ∃ m c, (m, c) ∈ ch ∧ (n = c ∨ NodeBelow n c) := by
  constructor
  · intro h
    cases h with
    | child m hm => exact ⟨m, _, by simpa using hm, Or.inl rfl⟩
    | step m hm hn => exact ⟨m, _, by simpa using hm, Or.inr hn⟩
  · rintro ⟨m, c, hm, h | h⟩
    · subst h
      exact .child m (by simpa using hm)
    · exact .step m (by simpa using hm) h

theorem nodeBelow_trans {σ : Type} {a b c : STree σ}
    (hbc : NodeBelow b c) (hab : NodeBelow a b) : NodeBelow a c := by
  induction hbc with
  | child m hm => exact .step m hm hab
  | step m hm hn ih => exact .step m hm (ih hab)

/-- A statistics dict that has been touched by at least one update: the
keys are present and the total-samples counter `'s'` is at least 1. -/
def statsPos (s : UStats) : Prop := ∃ st, s = some st ∧ 1 ≤ st.s

theorem statsPos_update (s : UStats) (w : Winner)
    (h : s = none ∨ statsPos s) : statsPos (UCB1.update s w) := by
  have hs : 0 ≤ (s.getD ⟨0, 0, 0⟩).s := by
    rcases h with h | ⟨st, hst, hs1⟩
    · subst h
      simp
    · subst hst
      simpa using le_trans (by omega) hs1
  unfold UCB1.update statsPos
  refine ⟨_, rfl, ?_⟩
  by_cases h1 : w = none <;> by_cases h2 : w = some Player.one <;>
    simp [h1, h2] <;> omega

theorem selLoop_keys {σ V : Type} [LinearOrder V] (sel : σ → σ → Player → V)
    (upd : σ → Winner → σ) (e0 : σ) (pick : Nat) (winner : Winner)
    (m : Nat) (board2 : Board) :
    ∀ (l l2 : List (Nat × STree σ)),
      selLoop sel upd e0 pick winner m board2 l = some l2 →
      childKeys l2 = childKeys l := by
  intro l
  induction l with
  | nil =>
    intro l2 h
    unfold selLoop at h
    cases h
  | cons hd rest ih =>
    intro l2 h
    rcases hd with ⟨a, c⟩
    unfold selLoop at h
    by_cases ha : a = m
    · rw [if_pos ha] at h
      rcases hc : _selection_helper sel upd e0 pick winner c board2 with _ | c2
      · rw [hc] at h
        cases h
      · rw [hc] at h
        injection h with h
        subst h
        rfl
    · rw [if_neg ha] at h
      rcases hr : selLoop sel upd e0 pick winner m board2 rest with _ | rest2
      · rw [hr] at h
        cases h
      · rw [hr] at h
        injection h with h
        subst h
        simp only [childKeys_cons, ih rest2 hr]

theorem selLoop_entries {σ V : Type} [LinearOrder V] (sel : σ → σ → Player → V)
    (upd : σ → Winner → σ) (e0 : σ) (pick : Nat) (winner : Winner)
    (m : Nat) (board2 : Board) :
    ∀ (l l2 : List (Nat × STree σ)),
      selLoop sel upd e0 pick winner m board2 l = some l2 →
      ∀ a c, (a, c) ∈ l2 → (a, c) ∈ l ∨
        (a = m ∧ ∃ c0, (a, c0) ∈ l ∧
          _selection_helper sel upd e0 pick winner c0 board2 = some c) := by
  intro l
  induction l with
  | nil =>
    intro l2 h
    unfold selLoop at h
    cases h
  | cons hd rest ih =>
    intro l2 h a c hmem
    rcases hd with ⟨a0, c0⟩
    unfold selLoop at h
    by_cases ha : a0 = m
    · rw [if_pos ha] at h
      rcases hc : _selection_helper sel upd e0 pick winner c0 board2 with _ | c2
      · rw [hc] at h
        cases h
      · rw [hc] at h
        injection h with h
        subst h
        rcases List.mem_cons.mp hmem with h1 | h1
        · injection h1 with h1a h1c
          subst h1a
          subst h1c
          exact Or.inr ⟨ha.symm ▸ rfl, c0, List.mem_cons_self _ _, hc⟩
        · exact Or.inl (List.mem_cons_of_mem _ h1)
    · rw [if_neg ha] at h
      rcases hr : selLoop sel upd e0 pick winner m board2 rest with _ | rest2
      · rw [hr] at h
        cases h
      · rw [hr] at h
        injection h with h
        subst h
        rcases List.mem_cons.mp hmem with h1 | h1
        · exact Or.inl (List.mem_cons.mpr (Or.inl h1))
        · rcases ih rest2 hr a c h1 with h2 | ⟨ham, c1, hc1, hs1⟩
          · exact Or.inl (List.mem_cons_of_mem _ h2)
          · exact Or.inr ⟨ham, c1, List.mem_cons_of_mem _ hc1, hs1⟩

/-- One MCTS iteration preserves stats-positivity, for any update
function `upd` that turns both fresh (`e0`) and positive stats into
positive stats (as the UCB1 update does, incrementing `'s'`): if every
proper descendant has positive stats and the root's stats are either
still fresh or positive, the same holds of the result, and the result's
root stats are positive (the propagation touches every node on the
path, the root included). -/
theorem sel_helper_pos {σ V : Type} [LinearOrder V] (sel : σ → σ → Player → V)
    (upd : σ → Winner → σ) (e0 : σ) (pos : σ → Prop)
    (hupd : ∀ s w, s = e0 ∨ pos s → pos (upd s w))
    (pick : Nat) (winner : Winner) :
    ∀ (N : Nat) (t : STree σ) (board : Board) (t2 : STree σ), sizeOf t < N →
      (∀ n, NodeBelow n t → pos n.stats) →
      (t.stats = e0 ∨ pos t.stats) →
      _selection_helper sel upd e0 pick winner t board = some t2 →
      (∀ n, NodeBelow n t2 → pos n.stats) ∧ pos t2.stats := by
  intro N
  induction N with
  | zero =>
    intro t _ _ h
    exact absurd h (by omega)
  | succ N ih =>
    intro t board t2 hN hAll hRoot hstep
    rcases t with ⟨s, ch, pl, ie⟩
    simp only [STree.stats_mk] at hRoot
    unfold _selection_helper at hstep
    by_cases hie : ie = true
    · rw [hie, if_pos rfl] at hstep
      injection hstep with hstep
      subst hstep
      refine ⟨?_, hupd s winner hRoot⟩
      intro n hn
      rcases nodeBelow_mk.mp hn with ⟨m, c, hm, hc⟩
      exact hAll n (nodeBelow_mk.mpr ⟨m, c, hm, hc⟩)
    · have hie2 : ie = false := by
        cases ie
        · rfl
        · exact absurd rfl hie
      subst hie2
      rw [if_neg (by simp)] at hstep
      by_cases hlen : ch.length < (legalMovesN board).length
      · rw [if_pos hlen] at hstep
        rcases hf : (legalMovesN board).filter
            (fun m => !((childKeys ch).contains m)) with _ | ⟨u, us⟩
        · simp only [hf] at hstep
          cases hstep
        · simp only [hf] at hstep
          rcases hap : apply_player_action board
              ((u :: us).getD (pick % (u :: us).length) u) pl with _ | board2
          · simp only [hap] at hstep
            cases hstep
          · simp only [hap] at hstep
            injection hstep with hstep
            subst hstep
            refine ⟨?_, hupd s winner hRoot⟩
            intro n hn
            rcases nodeBelow_mk.mp hn with ⟨m, c, hm, hc⟩
            rcases List.mem_append.mp hm with hm1 | hm1
            · exact hAll n (nodeBelow_mk.mpr ⟨m, c, hm1, hc⟩)
            · have hc2 : c = STree.mk (upd e0 winner) [] pl.other
                  (decide (check_end_state board2 pl ≠ GameState.STILL_PLAYING)) := by
                rcases List.mem_singleton.mp hm1 with h1
                injection h1 with h1a h1b
              rcases hc with hc | hc
              · subst hc
                rw [hc2]
                exact hupd e0 winner (Or.inl rfl)
              · rw [hc2] at hc
                rcases nodeBelow_mk.mp hc with ⟨m3, c3, hm3, -⟩
                cases hm3
      · rw [if_neg hlen] at hstep
        rcases hmx : argmaxChild sel (STree.mk s ch pl false) with _ | m
        · simp only [hmx] at hstep
          cases hstep
        · simp only [hmx] at hstep
          rcases hap : apply_player_action board m pl with _ | board2
          · simp only [hap] at hstep
            cases hstep
          · simp only [hap] at hstep
            rcases hl : selLoop sel upd e0 pick winner m board2 ch
                with _ | ch2
            · simp only [hl] at hstep
              cases hstep
            · simp only [hl] at hstep
              injection hstep with hstep
              subst hstep
              refine ⟨?_, hupd s winner hRoot⟩
              intro n hn
              rcases nodeBelow_mk.mp hn with ⟨a, c, hm, hc⟩
              rcases selLoop_entries sel upd e0 pick winner m board2
                  ch ch2 hl a c hm with hold | ⟨-, c0, hc0, hs0⟩
              · exact hAll n (nodeBelow_mk.mpr ⟨a, c, hold, hc⟩)
              · have hc0below : NodeBelow c0 (STree.mk s ch pl false) :=
                  .child a (by simpa using hc0)
                have hAllc0 : ∀ n2, NodeBelow n2 c0 → pos n2.stats :=
                  fun n2 h2 => hAll n2 (nodeBelow_trans hc0below h2)
                have hRootc0 : c0.stats = e0 ∨ pos c0.stats :=
                  Or.inr (hAll c0 hc0below)
                have hsz : sizeOf c0 < N :=
                  Nat.lt_of_lt_of_le
                    (@sizeOf_child_lt σ s ch pl false a c0 hc0)
                    (Nat.lt_succ_iff.mp hN)
                obtain ⟨hA, hP⟩ := ih c0 board2 c hsz hAllc0 hRootc0 hs0
                rcases hc with hc | hc
                · subst hc
                  exact hP
                · exact hA n hc

/-- Any number of MCTS iterations preserve the stats-positivity
invariant; additionally a non-empty children dict forces positive root
stats (children only appear in iterations, each of which updates the
root). -/
theorem mctsRun_pos {σ V : Type} [LinearOrder V] (sel : σ → σ → Player → V)
    (upd : σ → Winner → σ) (e0 : σ) (pos : σ → Prop)
    (hupd : ∀ s w, s = e0 ∨ pos s → pos (upd s w)) :
    ∀ (os : List (Nat × Winner)) (t : STree σ) (board : Board) (t2 : STree σ),
      (∀ n, NodeBelow n t → pos n.stats) →
      (t.stats = e0 ∨ pos t.stats) →
      (t.children ≠ [] → pos t.stats) →
      mctsRun sel upd e0 os t board = some t2 →
      (∀ n, NodeBelow n t2 → pos n.stats) ∧
      (t2.children ≠ [] → pos t2.stats) := by
  intro os
  induction os with
  | nil =>
    intro t board t2 hAll _ hCh hrun
    unfold mctsRun at hrun
    injection hrun with hrun
    subst hrun
    exact ⟨hAll, hCh⟩
  | cons o os ih =>
    intro t board t2 hAll hRoot hCh hrun
    rcases o with ⟨pick, winner⟩
    unfold mctsRun at hrun
    rcases hstep : _selection_helper sel upd e0 pick winner t board
        with _ | t3
    · rw [hstep] at hrun
      cases hrun
    · rw [hstep] at hrun
      obtain ⟨hA3, hP3⟩ := sel_helper_pos sel upd e0 pos hupd pick winner
        (sizeOf t + 1) t board t3 (by omega) hAll hRoot hstep
      exact ih t3 board t2 hA3 (Or.inr hP3) (fun _ => hP3) hrun

/-- Evaluation of the expansion branch of `_selection_helper`: some legal
move is untried, so the picked untried move is expanded into a fresh child
and every node on the (here ending) path is updated. -/
theorem sel_helper_expand {σ V : Type} [LinearOrder V] (sel : σ → σ → Player → V)
    (upd : σ → Winner → σ) (e0 : σ) (pick : Nat) (winner : Winner)
    (s : σ) (ch : List (Nat × STree σ)) (pl : Player) (board board2 : Board)
    (u : Nat) (us : List Nat) (mv : Nat)
    (hlen : ch.length < (legalMovesN board).length)
    (hf : (legalMovesN board).filter (fun m => !((childKeys ch).contains m)) = u :: us)
    (hmv : (u :: us).getD (pick % (u :: us).length) u = mv)
    (hap : apply_player_action board mv pl = some board2) :
    _selection_helper sel upd e0 pick winner (STree.mk s ch pl false) board =
      some (STree.mk (upd s winner)
        (ch ++ [(mv, STree.mk (upd e0 winner) [] pl.other
          (decide (check_end_state board2 pl ≠ GameState.STILL_PLAYING)))])
        pl false) := by
  conv_lhs => unfold _selection_helper
  rw [if_neg (by simp), if_pos hlen]
  split
  · rename_i heq
    rw [hf] at heq
    cases heq
  · rename_i u2 us2 heq
    rw [hf] at heq
    injection heq with h1 h2
    subst h1
    subst h2
    rw [hmv]
    split
    · rename_i heq2
      rw [hap] at heq2
      cases heq2
    · rename_i b3 heq2
      rw [hap] at heq2
      injection heq2 with h3
      subst h3
      rfl

/-- Claim C4: safety of the selection descent.  In every tree reachable by
any number of MCTS iterations (select-and-expand with the oracle-fed
untried-move choice, oracle simulation result, propagate-up with the UCB1
update) from a freshly created tree, every node with a non-empty children
dict has non-empty stats with total-samples `'s' ≥ 1`, and so does each of
its children.  The descent of `_selection_helper` evaluates the selection
function only at such nodes (the argmax needs at least one child, and
every evaluated child is in the dict), so a node with zero samples never
reaches `select`: the policy's dict accesses and the division and
logarithm inside `select` are well-defined. -/
theorem C4_selection_safety {V : Type} [LinearOrder V]
    (sel : UStats → UStats → Player → V) (os : List (Nat × Winner))
    (board : Board) (player : Player) (t : STree UStats)
    (ht : mctsRun sel UCB1.update none os (freshTree none player) board = some t) :
    ∀ n : STree UStats, NodeIn n t → n.children ≠ [] →
      (∃ st, n.stats = some st ∧ 1 ≤ st.s) ∧
      ∀ m c, (m, c) ∈ n.children → ∃ st, c.stats = some st ∧ 1 ≤ st.s := by
  obtain ⟨hAll, hCh⟩ := mctsRun_pos sel UCB1.update none statsPos statsPos_update
    os (freshTree none player) board t
    (fun n hn => by
      rcases nodeBelow_mk.mp hn with ⟨m, c, hm, -⟩
      cases hm)
    (Or.inl rfl)
    (fun h => absurd rfl h)
    ht
  intro n hn hch
  constructor
  · rcases hn with hn | hn
    · subst hn
      exact hCh hch
    · exact hAll n hn
  · intro m c hm
    rcases hn with hn | hn
    · subst hn
      exact hAll c (.child m hm)
    · exact hAll c (nodeBelow_trans hn (.child m hm))

def wC4tree : STree UStats :=
  STree.mk (some ⟨1, 1, 0⟩)
    [(0, STree.mk (some ⟨1, 1, 0⟩) [] Player.two false)] Player.one false

theorem wC4run :
    mctsRun (fun _ _ _ => (0 : ℚ)) UCB1.update none [(0, some Player.one)]
      (freshTree none Player.one) initialize_game_state = some wC4tree := by
  have hap : apply_player_action initialize_game_state 0 Player.one = some wBoard1 :=
    apply_eq_some_of_boardEq (by decide)
  have hstep := sel_helper_expand (fun _ _ _ => (0 : ℚ)) UCB1.update none 0
    (some Player.one) none [] Player.one initialize_game_state wBoard1
    0 [1, 2, 3, 4, 5, 6] 0 (by decide) (by decide) rfl hap
  unfold mctsRun freshTree
  simp only [hstep]
  unfold mctsRun
  rfl

theorem C4_selection_safety_witness :
    (∃ st, wC4tree.stats = some st ∧ 1 ≤ st.s) ∧
    ∀ m c, (m, c) ∈ wC4tree.children → ∃ st, c.stats = some st ∧ 1 ≤ st.s :=
  C4_selection_safety (fun _ _ _ => (0 : ℚ)) [(0, some Player.one)]
    initialize_game_state Player.one wC4tree wC4run wC4tree (Or.inl rfl)
    (by simp [wC4tree])

/-- The structural invariant of claim C5, indexed by the node's
reconstructed board state: the children keys are distinct (a dict has at
most one child per action) and form a subset of the legal moves of the
board, each child carries the flipped player, and each child recursively
satisfies the invariant at the board reached by applying its action. -/
inductive TreeOK {σ : Type} : Board → STree σ → Prop where
  | mk {board : Board} {s : σ} {ch : List (Nat × STree σ)} {pl : Player} {e : Bool} :
      (childKeys ch).Nodup →
      (∀ a c, (a, c) ∈ ch → a ∈ legalMovesN board) →
      (∀ a c, (a, c) ∈ ch → c.player = pl.other) →
      (∀ a c b2, (a, c) ∈ ch → apply_player_action board a pl = some b2 → TreeOK b2 c) →
      TreeOK board (STree.mk s ch pl e)

theorem treeOK_nodup {σ : Type} {board : Board} {t : STree σ} (h : TreeOK board t) :
    (childKeys t.children).Nodup := by
  cases h
  assumption

theorem treeOK_keysLegal {σ : Type} {board : Board} {t : STree σ} (h : TreeOK board t) :
    ∀ a c, (a, c) ∈ t.children → a ∈ legalMovesN board := by
  cases h
  assumption

theorem treeOK_childPlayer {σ : Type} {board : Board} {t : STree σ} (h : TreeOK board t) :
    ∀ a c, (a, c) ∈ t.children → c.player = t.player.other := by
  cases h
  assumption

theorem treeOK_childOK {σ : Type} {board : Board} {t : STree σ} (h : TreeOK board t) :
    ∀ a c b2, (a, c) ∈ t.children →
      apply_player_action board a t.player = some b2 → TreeOK b2 c := by
  cases h
  assumption

theorem treeOK_childless {σ : Type} (board : Board) (s : σ) (pl : Player) (e : Bool) :
    TreeOK board (STree.mk s [] pl e) :=
  TreeOK.mk List.nodup_nil (fun _ _ h => absurd h (List.not_mem_nil _))
    (fun _ _ h => absurd h (List.not_mem_nil _))
    (fun _ _ _ h => absurd h (List.not_mem_nil _))

theorem treeOK_intro {σ : Type} {board : Board} {t : STree σ}
    (h1 : (childKeys t.children).Nodup)
    (h2 : ∀ a c, (a, c) ∈ t.children → a ∈ legalMovesN board)
    (h3 : ∀ a c, (a, c) ∈ t.children → c.player = t.player.other)
    (h4 : ∀ a c b2, (a, c) ∈ t.children →
      apply_player_action board a t.player = some b2 → TreeOK b2 c) :
    TreeOK board t := by
  rcases t with ⟨s, ch, pl, e⟩
  exact TreeOK.mk h1 h2 h3 h4

theorem getD_mem_of_mem {l : List Nat} {d : Nat} (n : Nat) (hd : d ∈ l) :
    l.getD n d ∈ l := by
  by_cases h : n < l.length
  · rw [List.getD_eq_getElem l d h]
    exact List.getElem_mem h
  · rw [List.getD_eq_default l d (by omega)]
    exact hd

/-- One MCTS iteration preserves the children-are-legal invariant; it
keeps the player, never removes a child, and adds at most one. -/
theorem sel_helper_treeOK {σ V : Type} [LinearOrder V] (sel : σ → σ → Player → V)
    (upd : σ → Winner → σ) (e0 : σ) (pick : Nat) (winner : Winner) :
    ∀ (N : Nat) (t : STree σ) (board : Board) (t2 : STree σ), sizeOf t < N →
      TreeOK board t →
      _selection_helper sel upd e0 pick winner t board = some t2 →
      TreeOK board t2 ∧ t2.player = t.player ∧
      (∀ a, a ∈ childKeys t.children → a ∈ childKeys t2.children) ∧
      t2.children.length ≤ t.children.length + 1 := by
  intro N
  induction N with
  | zero =>
    intro t _ _ h
    exact absurd h (by omega)
  | succ N ih =>
    intro t board t2 hN hOK hstep
    rcases t with ⟨s, ch, pl, ie⟩
    unfold _selection_helper at hstep
    by_cases hie : ie = true
    · rw [hie, if_pos rfl] at hstep
      injection hstep with hstep
      subst hstep
      refine ⟨?_, rfl, fun a ha => ha, by simp⟩
      cases hOK with
      | mk hnd hleg hcpl hcok => exact TreeOK.mk hnd hleg hcpl hcok
    · have hie2 : ie = false := by
        cases ie
        · rfl
        · exact absurd rfl hie
      subst hie2
      rw [if_neg (by simp)] at hstep
      by_cases hlen : ch.length < (legalMovesN board).length
      · rw [if_pos hlen] at hstep
        rcases hf : (legalMovesN board).filter
            (fun m => !((childKeys ch).contains m)) with _ | ⟨u, us⟩
        · simp only [hf] at hstep
          cases hstep
        · simp only [hf] at hstep
          rcases hap : apply_player_action board
              ((u :: us).getD (pick % (u :: us).length) u) pl with _ | board2
          · simp only [hap] at hstep
            cases hstep
          · simp only [hap] at hstep
            injection hstep with hstep
            subst hstep
            have hmvmem : (u :: us).getD (pick % (u :: us).length) u ∈ u :: us :=
              getD_mem_of_mem _ (List.mem_cons_self u us)
            have hmvfil : (u :: us).getD (pick % (u :: us).length) u ∈
                (legalMovesN board).filter (fun m => !((childKeys ch).contains m)) := by
              rw [hf]
              exact hmvmem
            rcases List.mem_filter.mp hmvfil with ⟨hmvleg, hmvnew⟩
            have hmvnotin : (u :: us).getD (pick % (u :: us).length) u ∉ childKeys ch := by
              intro hcon
              rw [← natContains_iff] at hcon
              rw [hcon] at hmvnew
              simp at hmvnew
            refine ⟨?_, rfl, ?_, ?_⟩
            · refine TreeOK.mk ?_ ?_ ?_ ?_
              · rw [show childKeys (ch ++ [((u :: us).getD (pick % (u :: us).length) u,
                    STree.mk (upd e0 winner) [] pl.other
                      (decide (check_end_state board2 pl ≠ GameState.STILL_PLAYING)))]) =
                    childKeys ch ++ [(u :: us).getD (pick % (u :: us).length) u]
                  from childKeys_append _ _]
                rw [List.nodup_append]
                refine ⟨treeOK_nodup hOK, List.nodup_singleton _, fun a ha hb => ?_⟩
                rcases List.mem_singleton.mp hb with rfl
                exact hmvnotin ha
              · intro a c hm
                rcases List.mem_append.mp hm with hm1 | hm1
                · exact treeOK_keysLegal hOK a c hm1
                · rcases List.mem_singleton.mp hm1 with h1
                  injection h1 with h1a h1b
                  subst h1a
                  exact hmvleg
              · intro a c hm
                rcases List.mem_append.mp hm with hm1 | hm1
                · exact treeOK_childPlayer hOK a c hm1
                · rcases List.mem_singleton.mp hm1 with h1
                  injection h1 with h1a h1b
                  subst h1b
                  rfl
              · intro a c b2 hm hab
                rcases List.mem_append.mp hm with hm1 | hm1
                · exact treeOK_childOK hOK a c b2 hm1 hab
                · rcases List.mem_singleton.mp hm1 with h1
                  injection h1 with h1a h1b
                  subst h1b
                  exact treeOK_childless b2 _ _ _
            · intro a ha
              simp only [STree.children_mk] at ha ⊢
              rw [childKeys_append]
              exact List.mem_append.mpr (Or.inl ha)
            · simp
      · rw [if_neg hlen] at hstep
        rcases hmx : argmaxChild sel (STree.mk s ch pl false) with _ | m
        · simp only [hmx] at hstep
          cases hstep
        · simp only [hmx] at hstep
          rcases hap : apply_player_action board m pl with _ | board2
          · simp only [hap] at hstep
            cases hstep
          · simp only [hap] at hstep
            rcases hl : selLoop sel upd e0 pick winner m board2 ch with _ | ch2
            · simp only [hl] at hstep
              cases hstep
            · simp only [hl] at hstep
              injection hstep with hstep
              subst hstep
              have hkeys := selLoop_keys sel upd e0 pick winner m board2 ch ch2 hl
              refine ⟨?_, rfl, ?_, ?_⟩
              · refine TreeOK.mk ?_ ?_ ?_ ?_
                · rw [show childKeys ch2 = childKeys ch from hkeys]
                  exact treeOK_nodup hOK
                · intro a c hm
                  have ha : a ∈ childKeys ch := by
                    rw [← hkeys]
                    exact List.mem_map.mpr ⟨(a, c), hm, rfl⟩
                  rcases List.mem_map.mp ha with ⟨⟨a0, c0⟩, hm0, ha0⟩
                  cases ha0
                  exact treeOK_keysLegal hOK a0 c0 hm0
                · intro a c hm
                  rcases selLoop_entries sel upd e0 pick winner m board2 ch ch2 hl
                      a c hm with hold | ⟨ham, c0, hc0, hs0⟩
                  · exact treeOK_childPlayer hOK a c hold
                  · have hsz : sizeOf c0 < N :=
                      Nat.lt_of_lt_of_le
                        (@sizeOf_child_lt σ s ch pl false a c0 hc0)
                        (Nat.lt_succ_iff.mp hN)
                    subst ham
                    obtain ⟨-, hpl0, -, -⟩ := ih c0 board2 c hsz
                      (treeOK_childOK hOK a c0 board2 hc0 hap) hs0
                    rw [hpl0]
                    exact treeOK_childPlayer hOK a c0 hc0
                · intro a c b2 hm hab
                  rcases selLoop_entries sel upd e0 pick winner m board2 ch ch2 hl
                      a c hm with hold | ⟨ham, c0, hc0, hs0⟩
                  · exact treeOK_childOK hOK a c b2 hold hab
                  · subst ham
                    have hb2 : b2 = board2 := by
                      rw [hap] at hab
                      injection hab with hab
                      exact hab.symm
                    subst hb2
                    have hsz : sizeOf c0 < N :=
                      Nat.lt_of_lt_of_le
                        (@sizeOf_child_lt σ s ch pl false a c0 hc0)
                        (Nat.lt_succ_iff.mp hN)
                    exact (ih c0 b2 c hsz
                      (treeOK_childOK hOK a c0 b2 hc0 hap) hs0).1
              · intro a ha
                simp only [STree.children_mk] at ha ⊢
                rw [hkeys]
                exact ha
              · have hlen2 : ch2.length = ch.length := by
                  have h1 : (childKeys ch2).length = (childKeys ch).length := by
                    rw [hkeys]
                  simpa [childKeys] using h1
                simp only [STree.children_mk]
                omega

/-- Any number of MCTS iterations preserve the children-are-legal
invariant. -/
theorem mctsRun_treeOK {σ V : Type} [LinearOrder V] (sel : σ → σ → Player → V)
    (upd : σ → Winner → σ) (e0 : σ) :
    ∀ (os : List (Nat × Winner)) (t : STree σ) (board : Board) (t2 : STree σ),
      TreeOK board t →
      mctsRun sel upd e0 os t board = some t2 →
      TreeOK board t2 := by
  intro os
  induction os with
  | nil =>
    intro t board t2 hOK hrun
    unfold mctsRun at hrun
    injection hrun with hrun
    subst hrun
    exact hOK
  | cons o os ih =>
    intro t board t2 hOK hrun
    rcases o with ⟨pick, winner⟩
    unfold mctsRun at hrun
    rcases hstep : _selection_helper sel upd e0 pick winner t board with _ | t3
    · rw [hstep] at hrun
      cases hrun
    · rw [hstep] at hrun
      exact ih t3 board t2
        ((sel_helper_treeOK sel upd e0 pick winner (sizeOf t + 1) t board t3
          (by omega) hOK hstep).1) hrun

/-- Following (and, where missing, freshly expanding) an action path whose
replay succeeds preserves the children-are-legal invariant, now at the
board the path leads to. -/
theorem descendExpand_treeOK {σ : Type} (e0 : σ) :
    ∀ (ms : List Nat) (t : STree σ) (board B2 : Board),
      TreeOK board t →
      replay board t.player ms = some B2 →
      TreeOK B2 (descendExpand e0 t ms) := by
  intro ms
  induction ms with
  | nil =>
    intro t board B2 hOK hrep
    unfold replay at hrep
    injection hrep with hrep
    subst hrep
    unfold descendExpand
    exact hOK
  | cons m ms ih =>
    intro t board B2 hOK hrep
    unfold replay at hrep
    rcases hap : apply_player_action board m t.player with _ | b1
    · simp only [hap] at hrep
      cases hrep
    · simp only [hap] at hrep
      unfold descendExpand
      rcases hlk : lookupA t.children m with _ | c
      · exact ih (STree.mk e0 [] t.player.other false) b1 B2
          (treeOK_childless b1 e0 t.player.other false) hrep
      · have hmem := lookupA_mem hlk
        have hcOK : TreeOK b1 c := treeOK_childOK hOK m c b1 hmem hap
        have hcpl : c.player = t.player.other := treeOK_childPlayer hOK m c hmem
        exact ih c b1 B2 hcOK (by rw [hcpl]; exact hrep)

/-- Root relocation preserves the children-are-legal invariant: the
resulting handle's tree satisfies it at the new root board. -/
theorem move_root_treeOK {σ : Type} (e0 : σ) (h : Handle σ) (B2 : Board) (r : Handle σ)
    (hOK : TreeOK h.board h.tree)
    (hok : _move_root e0 h B2 = Except.ok r) :
    TreeOK r.board r.tree := by
  unfold _move_root at hok
  rcases hfind : _find_connecting_action_sequence h.board B2 h.tree.player
    with ⟨found, ms⟩
  rcases found
  · simp only [hfind] at hok
    cases hok
  · simp only [hfind] at hok
    injection hok with hok
    subst hok
    exact descendExpand_treeOK e0 ms h.tree h.board B2 hOK (find_sound hfind)

theorem childKeys_insertChild {σ : Type} :
    ∀ (l : List (Nat × STree σ)) (m : Nat) (c : STree σ),
      childKeys (insertChild l m c) =
        if m ∈ childKeys l then childKeys l else childKeys l ++ [m] := by
  intro l
  induction l with
  | nil =>
    intro m c
    simp [insertChild, childKeys]
  | cons hd rest ih =>
    intro m c
    rcases hd with ⟨a, c0⟩
    unfold insertChild
    by_cases ha : a = m
    · subst ha
      simp [childKeys_cons]
    · rw [if_neg ha, childKeys_cons, childKeys_cons, ih]
      by_cases hm : m ∈ childKeys rest
      · rw [if_pos hm, if_pos (List.mem_cons.mpr (Or.inr hm))]
      · rw [if_neg hm, if_neg (by
          intro hcon
          rcases List.mem_cons.mp hcon with h1 | h1
          · exact ha h1.symm
          · exact hm h1)]
        simp

theorem insertChild_nodup {σ : Type} (l : List (Nat × STree σ)) (m : Nat) (c : STree σ)
    (h : (childKeys l).Nodup) : (childKeys (insertChild l m c)).Nodup := by
  rw [childKeys_insertChild]
  by_cases hm : m ∈ childKeys l
  · rw [if_pos hm]
    exact h
  · rw [if_neg hm]
    rw [List.nodup_append]
    refine ⟨h, List.nodup_singleton _, fun a ha hb => ?_⟩
    rcases List.mem_singleton.mp hb with rfl
    exact hm ha

theorem copyChildStats_nodup {σ : Type} (l : List (Nat × STree σ)) (pl : Player)
    (m : Nat) (st : σ) (h : (childKeys l).Nodup) :
    (childKeys (copyChildStats l pl m st)).Nodup := by
  unfold copyChildStats
  rcases hlk : lookupA l m with _ | c
  · simp only [hlk]
    rw [childKeys_append, List.nodup_append]
    refine ⟨h, by simp [childKeys], fun a ha hb => ?_⟩
    have : a = m := by simpa [childKeys] using hb
    subst this
    exact (lookupA_none_iff.mp hlk) ha
  · rcases c with ⟨s2, ch2, p2, e2⟩
    simp only [hlk]
    exact insertChild_nodup l m _ h

theorem copy_foldl_nodup {σ : Type} (pl : Player) :
    ∀ (L acc : List (Nat × STree σ)), (childKeys acc).Nodup →
      (childKeys (L.foldl
        (fun ch mc => copyChildStats ch pl mc.1 mc.2.stats) acc)).Nodup := by
  intro L
  induction L with
  | nil =>
    intro acc h
    exact h
  | cons hd rest ih =>
    intro acc h
    exact ih _ (copyChildStats_nodup acc pl hd.1 hd.2.stats h)

theorem mergeUniques_nodup {σ : Type} (c1 c2 : List (Nat × STree σ)) (p1 : Player) :
    (childKeys (mergeUniques c1 c2 p1)).Nodup := by
  unfold mergeUniques
  exact copy_foldl_nodup p1 _ [] List.nodup_nil

theorem mergeLoop_nodup {σ : Type} (f : σ → σ → σ) (c2 : List (Nat × STree σ)) :
    ∀ (l acc res : List (Nat × STree σ)), (childKeys acc).Nodup →
      mergeLoop f c2 l acc = Except.ok res →
      (childKeys res).Nodup := by
  intro l
  induction l with
  | nil =>
    intro acc res h hml
    unfold mergeLoop at hml
    injection hml with hml
    subst hml
    exact h
  | cons hd rest ih =>
    intro acc res h hml
    rcases hd with ⟨m, ch1⟩
    unfold mergeLoop at hml
    rcases hc2 : lookupA c2 m with _ | ch2
    · simp only [hc2] at hml
      exact ih acc res h hml
    · simp only [hc2] at hml
      rcases hmc : merge_rec f ch1 ch2 with e | mc
      · simp only [hmc] at hml
        cases hml
      · simp only [hmc] at hml
        exact ih _ res (insertChild_nodup acc m mc h) hml

/-- Basic shape of a successful recursive merge: keeps the first tree's
player, clears the end flag, and produces distinct children keys. -/
theorem merge_rec_basic {σ : Type} (f : σ → σ → σ) {t1 t2 t : STree σ}
    (hok : merge_rec f t1 t2 = Except.ok t) :
    t.player = t1.player ∧ t.isEnd = false ∧ (childKeys t.children).Nodup := by
  rcases t1 with ⟨s1, c1, p1, e1⟩
  rcases t2 with ⟨s2, c2, p2, e2⟩
  unfold merge_rec at hok
  by_cases hp : p1 = p2
  · rw [if_pos hp] at hok
    rcases hml : mergeLoop f c2 c1 (mergeUniques c1 c2 p1) with e | ch
    · simp only [hml] at hok
      cases hok
    · simp only [hml] at hok
      injection hok with hok
      subst hok
      exact ⟨rfl, rfl, mergeLoop_nodup f c2 c1 _ ch
        (mergeUniques_nodup c1 c2 p1) hml⟩
  · rw [if_neg hp] at hok
    cases hok

/-- A successful recursive merge implies the two root players agreed. -/
theorem merge_rec_players {σ : Type} (f : σ → σ → σ) {t1 t2 t : STree σ}
    (hok : merge_rec f t1 t2 = Except.ok t) : t1.player = t2.player := by
  rcases t1 with ⟨s1, c1, p1, e1⟩
  rcases t2 with ⟨s2, c2, p2, e2⟩
  unfold merge_rec at hok
  by_cases hp : p1 = p2
  · simp only [STree.player_mk]
    exact hp
  · rw [if_neg hp] at hok
    cases hok

/-- A successful recursive merge of two trees satisfying the
children-are-legal invariant at the same board satisfies it as well. -/
theorem merge_rec_treeOK {σ : Type} (f : σ → σ → σ) :
    ∀ (N : Nat) (t1 t2 : STree σ) (board : Board) (t : STree σ), sizeOf t1 < N →
      TreeOK board t1 → TreeOK board t2 → t1.player = t2.player →
      merge_rec f t1 t2 = Except.ok t →
      TreeOK board t := by
  intro N
  induction N with
  | zero =>
    intro t1 t2 board t h
    exact absurd h (by omega)
  | succ N ih =>
    intro t1 t2 board t hN h1 h2 hp hok
    obtain ⟨hpl, hisend, hndt⟩ := merge_rec_basic f hok
    rcases t1 with ⟨s1, c1, p1, e1⟩
    rcases t2 with ⟨s2, c2, p2, e2⟩
    simp only [STree.player_mk] at hp hpl
    obtain ⟨-, -, -, hsome, hcommon, huniq1, huniq2⟩ :=
      merge_rec_spec f (treeOK_nodup h1) (treeOK_nodup h2) hp hok
    simp only [STree.children_mk] at hsome hcommon huniq1 huniq2
    refine treeOK_intro hndt ?_ ?_ ?_
    · intro a c hm
      have hlk : lookupA t.children a = some c := lookupA_of_mem_nodup hndt hm
      have hsm : (lookupA t.children a).isSome = true := by
        rw [hlk]
        rfl
      rcases (hsome a).mp hsm with hs | hs
      · rcases Option.isSome_iff_exists.mp hs with ⟨c1x, hc1x⟩
        exact treeOK_keysLegal h1 a c1x (lookupA_mem hc1x)
      · rcases Option.isSome_iff_exists.mp hs with ⟨c2x, hc2x⟩
        exact treeOK_keysLegal h2 a c2x (lookupA_mem hc2x)
    · intro a c hm
      have hlk : lookupA t.children a = some c := lookupA_of_mem_nodup hndt hm
      rw [hpl]
      rcases hc1x : lookupA c1 a with _ | ch1x
      · rcases hc2x : lookupA c2 a with _ | ch2x
        · have hsm : (lookupA t.children a).isSome = true := by
            rw [hlk]
            rfl
          rcases (hsome a).mp hsm with hs | hs
          · rw [hc1x] at hs
            cases hs
          · rw [hc2x] at hs
            cases hs
        · have := huniq2 a ch2x hc1x hc2x
          rw [hlk] at this
          injection this with this
          subst this
          rfl
      · rcases hc2x : lookupA c2 a with _ | ch2x
        · have := huniq1 a ch1x hc1x hc2x
          rw [hlk] at this
          injection this with this
          subst this
          rfl
        · rcases hcommon a ch1x ch2x hc1x hc2x with ⟨mc, hmc, hmct⟩
          rw [hlk] at hmct
          injection hmct with hmct
          subst hmct
          rw [(merge_rec_basic f hmc).1]
          exact treeOK_childPlayer h1 a ch1x (lookupA_mem hc1x)
    · intro a c b2 hm hab
      have hlk : lookupA t.children a = some c := lookupA_of_mem_nodup hndt hm
      rw [hpl] at hab
      rcases hc1x : lookupA c1 a with _ | ch1x
      · rcases hc2x : lookupA c2 a with _ | ch2x
        · have hsm : (lookupA t.children a).isSome = true := by
            rw [hlk]
            rfl
          rcases (hsome a).mp hsm with hs | hs
          · rw [hc1x] at hs
            cases hs
          · rw [hc2x] at hs
            cases hs
        · have := huniq2 a ch2x hc1x hc2x
          rw [hlk] at this
          injection this with this
          subst this
          exact treeOK_childless b2 _ _ _
      · rcases hc2x : lookupA c2 a with _ | ch2x
        · have := huniq1 a ch1x hc1x hc2x
          rw [hlk] at this
          injection this with this
          subst this
          exact treeOK_childless b2 _ _ _
        · rcases hcommon a ch1x ch2x hc1x hc2x with ⟨mc, hmc, hmct⟩
          rw [hlk] at hmct
          injection hmct with hmct
          subst hmct
          have hm1 := lookupA_mem hc1x
          have hm2 := lookupA_mem hc2x
          have hsz : sizeOf ch1x < N :=
            Nat.lt_of_lt_of_le
              (@sizeOf_child_lt σ s1 c1 p1 e1 a ch1x hm1)
              (Nat.lt_succ_iff.mp hN)
          refine ih ch1x ch2x b2 c hsz
            (treeOK_childOK h1 a ch1x b2 hm1 hab)
            (treeOK_childOK h2 a ch2x b2 hm2 (by rw [← hp]; exact hab)) ?_ hmc
          rw [treeOK_childPlayer h1 a ch1x hm1, treeOK_childPlayer h2 a ch2x hm2, hp]
          rfl

/-- `merge_trees` at the handle level preserves the invariant. -/
theorem merge_trees_treeOK {σ : Type} (f : σ → σ → σ) (h1 h2 : Handle σ) (r : Handle σ)
    (hOK1 : TreeOK h1.board h1.tree) (hOK2 : TreeOK h2.board h2.tree)
    (hok : merge_trees f h1 h2 = Except.ok r) :
    TreeOK r.board r.tree := by
  unfold merge_trees at hok
  rcases hbe : boardEq h1.board h2.board with _ | _
  · simp only [hbe] at hok
    cases hok
  · simp only [hbe] at hok
    rcases hmr : merge_rec f h1.tree h2.tree with e | t
    · simp only [hmr] at hok
      cases hok
    · simp only [hmr] at hok
      injection hok with hok
      subst hok
      have hb : h1.board = h2.board := boardEq_iff.mp hbe
      exact merge_rec_treeOK f (sizeOf h1.tree + 1) h1.tree h2.tree h1.board t
        (by omega) hOK1 (hb ▸ hOK2) (merge_rec_players f hmr) hmr

/-- Claim C5: invariant of the public tree operations.  `TreeOK board t`
states that at every node of `t`, taken with its reconstructed board
state, the children keys are distinct (so expansion keeps at most one
child per action) and form a subset of the legal moves — the columns
whose top cell is empty — of that board, and every subtree satisfies the
same at the board obtained by applying its action.  The invariant holds
of a freshly created tree and is preserved by select-and-expand MCTS
iterations (a single iteration moreover never removes a child and adds at
most one), by any number of iterations, by root relocation (at the new
root board), and by tree merge. -/
theorem C5_children_invariant :
    (∀ (σ : Type) (e0 : σ) (player : Player) (board : Board),
      TreeOK board (freshTree e0 player)) ∧
    (∀ (σ V : Type) [LinearOrder V] (sel : σ → σ → Player → V)
      (upd : σ → Winner → σ) (e0 : σ) (pick : Nat) (winner : Winner)
      (t : STree σ) (board : Board) (t2 : STree σ),
      TreeOK board t →
      _selection_helper sel upd e0 pick winner t board = some t2 →
      TreeOK board t2 ∧
      (∀ a, a ∈ childKeys t.children → a ∈ childKeys t2.children) ∧
      t2.children.length ≤ t.children.length + 1) ∧
    (∀ (σ V : Type) [LinearOrder V] (sel : σ → σ → Player → V)
      (upd : σ → Winner → σ) (e0 : σ) (os : List (Nat × Winner))
      (t : STree σ) (board : Board) (t2 : STree σ),
      TreeOK board t →
      mctsRun sel upd e0 os t board = some t2 →
      TreeOK board t2) ∧
    (∀ (σ : Type) (e0 : σ) (h : Handle σ) (B2 : Board) (r : Handle σ),
      TreeOK h.board h.tree →
      _move_root e0 h B2 = Except.ok r →
      TreeOK r.board r.tree) ∧
    (∀ (σ : Type) (f : σ → σ → σ) (h1 h2 r : Handle σ),
      TreeOK h1.board h1.tree → TreeOK h2.board h2.tree →
      merge_trees f h1 h2 = Except.ok r →
      TreeOK r.board r.tree) := by
  refine ⟨?_, ?_, ?_, ?_, ?_⟩
  · intro σ e0 player board
    exact treeOK_childless board e0 player false
  · intro σ V inst sel upd e0 pick winner t board t2 hOK hstep
    obtain ⟨hT, -, hsub, hlen⟩ := sel_helper_treeOK sel upd e0 pick winner
      (sizeOf t + 1) t board t2 (by omega) hOK hstep
    exact ⟨hT, hsub, hlen⟩
  · intro σ V inst sel upd e0 os t board t2 hOK hrun
    exact mctsRun_treeOK sel upd e0 os t board t2 hOK hrun
  · intro σ e0 h B2 r hOK hok
    exact move_root_treeOK e0 h B2 r hOK hok
  · intro σ f h1 h2 r hOK1 hOK2 hok
    exact merge_trees_treeOK f h1 h2 r hOK1 hOK2 hok

theorem C5_children_invariant_witness :
    TreeOK initialize_game_state (freshTree (0 : Nat) Player.one) ∧
    TreeOK initialize_game_state wC4tree := by
  refine ⟨C5_children_invariant.1 Nat 0 Player.one initialize_game_state, ?_⟩
  exact C5_children_invariant.2.2.1 UStats ℚ (fun _ _ _ => (0 : ℚ)) UCB1.update none
    [(0, some Player.one)] (freshTree none Player.one) initialize_game_state wC4tree
    (C5_children_invariant.1 UStats none Player.one initialize_game_state)
    wC4run

end FourWins
